import Mathlib

/-!
# signalstickers: the frame normalisation pipeline of `handleOne`

A shallow embedding of the pure core of `handleOne` and `makeSquare`
(`main.go`): the palette uniformity check, the colour budget scan, the three
unification strategies, the square padding / size limit and the assembly of
the APNG frame descriptors.

Conventions.
* `uint8` values are `Fin 256`; `int` values are `Int`; `uint` is a `Nat`
  below `2 ^ 64`.
* A run-time panic of the Go program (index out of range, nil dereference,
  an allocation with a negative size) is the value `none`.
* `g.Image` is a list of frames.  The decoder allocates every frame
  separately, so the pointer test `frame == primaryFrame` is the test
  "this is the frame at position 0".
* Go slices are values here: `frame.Palette = primaryFrame.Palette` copies
  the slice header (pointer and length), so the frame sees the entries the
  primary palette has at that moment and none appended later.
-/

namespace Signalstickers

/-! ## Data model -/

/-- An 8-bit machine integer (Go `uint8`). -/
abbrev Byte := Fin 256

/-- Truncation of a natural number to `uint8`. -/
def toByte (n : Nat) : Byte := ⟨n % 256, Nat.mod_lt n (by decide)⟩

/-- Go `color.RGBA`: four 8-bit channels. -/
structure Color where
  r : Byte
  g : Byte
  b : Byte
  a : Byte
deriving DecidableEq, Repr

/-- The key type `[4]uint32` of the `uniqueColors` map. -/
abbrev ColorKey := Nat × Nat × Nat × Nat

/-- Method `color.RGBA.RGBA()`: every channel `v` is widened to 16 bits as
`v | v << 8`, which is `v * 257` for an 8-bit `v`. -/
def Color.RGBA (c : Color) : ColorKey :=
  (c.r.val * 257, c.g.val * 257, c.b.val * 257, c.a.val * 257)

/-- The colour `color.RGBA{0, 0, 0, 0}`. -/
def transparent : Color := ⟨0, 0, 0, 0⟩

/-- Go `image.Point`. -/
structure Point where
  x : Int
  y : Int
deriving DecidableEq, Repr

/-- Go `image.Rectangle`: the points with `min.x ≤ x < max.x` and
`min.y ≤ y < max.y`. -/
structure Rectangle where
  min : Point
  max : Point
deriving DecidableEq, Repr

/-- Method `Rectangle.Dx`. -/
def Rectangle.Dx (r : Rectangle) : Int := r.max.x - r.min.x

/-- Method `Rectangle.Dy`. -/
def Rectangle.Dy (r : Rectangle) : Int := r.max.y - r.min.y

/-- Method `Rectangle.Empty`. -/
def Rectangle.Empty (r : Rectangle) : Bool :=
  decide (r.min.x ≥ r.max.x) || decide (r.min.y ≥ r.max.y)

/-- Method `Point.In`. -/
def Point.In (p : Point) (r : Rectangle) : Bool :=
  decide (r.min.x ≤ p.x) && decide (p.x < r.max.x) &&
    decide (r.min.y ≤ p.y) && decide (p.y < r.max.y)

/-- Method `Rectangle.Add`: translation by a point. -/
def Rectangle.Add (r : Rectangle) (p : Point) : Rectangle :=
  ⟨⟨r.min.x + p.x, r.min.y + p.y⟩, ⟨r.max.x + p.x, r.max.y + p.y⟩⟩

/-- The zero rectangle `image.ZR`. -/
def ZR : Rectangle := ⟨⟨0, 0⟩, ⟨0, 0⟩⟩

/-- Method `Rectangle.Intersect`. -/
def Rectangle.Intersect (r s : Rectangle) : Rectangle :=
  let r1 : Rectangle :=
    ⟨⟨if r.min.x < s.min.x then s.min.x else r.min.x,
      if r.min.y < s.min.y then s.min.y else r.min.y⟩,
     ⟨if r.max.x > s.max.x then s.max.x else r.max.x,
      if r.max.y > s.max.y then s.max.y else r.max.y⟩⟩
  if r1.Empty then ZR else r1

/-- Go `image.Paletted`: the index buffer `Pix`, its `Stride`, the bounds
`Rect` and the `Palette`. -/
structure Paletted where
  pix : List Byte
  stride : Int
  rect : Rectangle
  palette : List Color
deriving DecidableEq, Repr

/-- Method `Paletted.PixOffset`. -/
def Paletted.PixOffset (p : Paletted) (x y : Int) : Int :=
  (y - p.rect.min.y) * p.stride + (x - p.rect.min.x)

/-- The element `s[i]` of a slice for an `int` index; `none` is the
index-out-of-range panic. -/
def sliceAt {α : Type} (s : List α) (i : Int) : Option α :=
  if i < 0 then none else s[i.toNat]?

/-! ## Palette Uniformity Checker (`main.go`, lines 84-113) -/

/-- The loop over `k` (lines 98-105) for the palettes `pi` of frame
`frameIdx` and `pj` of frame `j`; the argument is the list of the values of
`k` still to run.  `some true`: a mismatch set `mustRepalettize` and left the
loop; `some false`: the loop ran to its end; `none`: `Palette[k]` was out of
range. -/
def loopK (pi pj : List Color) : List Nat → Option Bool
  | [] => some false
  | k :: ks =>
    match pi[k]?, pj[k]? with
    | some c1, some c2 =>
      if c1.RGBA.1 ≠ c2.RGBA.1 ∨ c1.RGBA.2.1 ≠ c2.RGBA.2.1 ∨
          c1.RGBA.2.2.1 ≠ c2.RGBA.2.2.1 ∨ c1.RGBA.2.2.2 ≠ c2.RGBA.2.2.2 then
        some true
      else loopK pi pj ks
    | _, _ => none

/-- The loop over `j` (lines 94-109) for frame `frameIdx` with palette `pi`;
the argument is the list of the values of `j` still to run. -/
def loopJ (imgs : List Paletted) (frameIdx : Nat) (pi : List Color) :
    List Nat → Option Bool
  | [] => some false
  | j :: js =>
    if j = frameIdx then loopJ imgs frameIdx pi js
    else
      match imgs[j]? with
      | none => none
      | some fj =>
        match loopK pi fj.palette (List.range pi.length) with
        | none => none
        | some true => some true
        | some false => loopJ imgs frameIdx pi js

/-- The loop over `frameIdx` (lines 86-113); `maxPaletteLength` is threaded
through, starting at `-1`. -/
def loopFrames (imgs : List Paletted) (maxPaletteLength : Int) :
    List Nat → Option Bool
  | [] => some false
  | frameIdx :: rest =>
    match imgs[frameIdx]? with
    | none => none
    | some fi =>
      let maxLen : Int :=
        if maxPaletteLength = -1 then (fi.palette.length : Int) else maxPaletteLength
      if (fi.palette.length : Int) ≠ maxLen then some true
      else
        match loopJ imgs frameIdx fi.palette (List.range imgs.length) with
        | none => none
        | some true => some true
        | some false => loopFrames imgs maxLen rest

/-- The value of `mustRepalettize` after lines 84-113, or `none` when the
loop panics. -/
def mustRepalettize (imgs : List Paletted) : Option Bool :=
  loopFrames imgs (-1) (List.range imgs.length)

/-! ## Color Budget Analyzer (`main.go`, lines 115-131) -/

/-- Lines 121-123: the key is added to the map unless it is present.  The map
`uniqueColors` is the list of its keys, so `len(uniqueColors)` is the length
of the list. -/
def insertKey (u : List ColorKey) (k : ColorKey) : List ColorKey :=
  if k ∈ u then u else u ++ [k]

/-- The loop over one palette (lines 118-127), leaving at the `break` of
line 125. -/
def scanPalette (u : List ColorKey) : List Color → List ColorKey
  | [] => u
  | p :: ps =>
    let u1 := insertKey u p.RGBA
    if u1.length > 256 then u1 else scanPalette u1 ps

/-- The loop over the frames (lines 117-131), leaving at the `break` of
line 129. -/
def scanFrames (u : List ColorKey) : List Paletted → List ColorKey
  | [] => u
  | img :: rest =>
    let u1 := scanPalette u img.palette
    if u1.length > 256 then u1 else scanFrames u1 rest

/-- The map `uniqueColors` after the scan. -/
def uniqueColors (imgs : List Paletted) : List ColorKey := scanFrames [] imgs

/-- The promotion test of line 135, `len(uniqueColors) > 256`. -/
def exceedsBudget (imgs : List Paletted) : Bool :=
  decide ((uniqueColors imgs).length > 256)

/-- The specification's count: the number of distinct RGBA 4-tuples among all
entries of all palettes, with no early exit. -/
def distinctColorCount (imgs : List Paletted) : Nat :=
  ((imgs.map (fun img => img.palette.map Color.RGBA)).flatten.dedup).length

/-! ## Palette Unifier (`main.go`, lines 142-192) -/

/-- The test of line 149 on two colours. -/
def sameRGBA (c entry : Color) : Bool :=
  decide (c.RGBA.1 = entry.RGBA.1) && decide (c.RGBA.2.1 = entry.RGBA.2.1) &&
    decide (c.RGBA.2.2.1 = entry.RGBA.2.2.1) && decide (c.RGBA.2.2.2 = entry.RGBA.2.2.2)

/-- The closure `insertColorEntry` (lines 144-159) on the palette of the
frame it is given.  The result is the palette after the call and the index
returned; `none` is the error of line 155. -/
def insertColorEntry (palette : List Color) (c : Color) : List Color × Option Nat :=
  match palette.findIdx? (fun entry => sameRGBA c entry) with
  | some entryIndex => (palette, some entryIndex)
  | none =>
    if palette.length ≥ 256 then (palette, none)
    else (palette ++ [c], some ((palette ++ [c]).length - 1))

/-- Go `color.sqDiff` on `uint32` values: `d := x - y; (d * d) >> 2`. -/
def sqDiff (x y : Nat) : Nat :=
  let d := (x + 2 ^ 32 - y % 2 ^ 32) % 2 ^ 32
  (d * d % 2 ^ 32) / 4

/-- The loop of Go `color.Palette.Index`: `i` is the index of the entry at
the head of the list, `ret` and `bestSum` are the loop's variables. -/
def indexLoop (c : Color) : List Color → Nat → Nat → Nat → Nat
  | [], _, ret, _ => ret
  | v :: vs, i, ret, bestSum =>
    let sum := (sqDiff c.RGBA.1 v.RGBA.1 + sqDiff c.RGBA.2.1 v.RGBA.2.1 +
      sqDiff c.RGBA.2.2.1 v.RGBA.2.2.1 + sqDiff c.RGBA.2.2.2 v.RGBA.2.2.2) % 2 ^ 32
    if sum < bestSum then
      if sum = 0 then i else indexLoop c vs (i + 1) i sum
    else indexLoop c vs (i + 1) ret bestSum

/-- The closure `getClosestColorEntry` (lines 160-162), which is Go
`color.Palette.Index`. -/
def getClosestColorEntry (palette : List Color) (c : Color) : Nat :=
  indexLoop c palette 0 0 (2 ^ 32 - 1)

/-- Lines 171-180: the index map `m` of one frame, built entry by entry
against the primary palette.  The map has the keys `0 .. len - 1`, so it is
the list of its values in key order.  The result is the primary palette after
the loop and the map. -/
def buildMap (primary : List Color) : List Color → List Color × List Nat
  | [] => (primary, [])
  | c :: cs =>
    match insertColorEntry primary c with
    | (primary1, some newIndex) =>
      ((buildMap primary1 cs).1, newIndex :: (buildMap primary1 cs).2)
    | (primary1, none) =>
      ((buildMap primary1 cs).1, getClosestColorEntry primary1 c :: (buildMap primary1 cs).2)

/-- The lookup `m[k]`; a key that is absent gives the zero value. -/
def mapLookup (m : List Nat) (k : Nat) : Nat := m.getD k 0

/-- The points of the loops of lines 183-184, in the order they are visited:
`x` outermost, `y` innermost. -/
def loopPoints (r : Rectangle) : List Point :=
  ((List.range r.Dx.toNat).map (fun (dx : Nat) =>
    (List.range r.Dy.toNat).map (fun (dy : Nat) =>
      (⟨r.min.x + Int.ofNat dx, r.min.y + Int.ofNat dy⟩ : Point)))).flatten

/-- Lines 185-186 at one point: `i := frame.PixOffset(x, y)` and
`p[i] = uint8(m[int(frame.Pix[i])])`. -/
def remapAt (frame : Paletted) (m : List Nat) (p : List Byte) (pt : Point) :
    Option (List Byte) :=
  match sliceAt frame.pix (frame.PixOffset pt.x pt.y) with
  | none => none
  | some v => some (p.set (frame.PixOffset pt.x pt.y).toNat (toByte (mapLookup m v.val)))

/-- The loops of lines 183-188 over a list of points. -/
def remapLoop (frame : Paletted) (m : List Nat) : List Byte → List Point → Option (List Byte)
  | p, [] => some p
  | p, pt :: pts =>
    match remapAt frame m p pt with
    | none => none
    | some p1 => remapLoop frame m p1 pts

/-- Lines 182-188: the new index buffer of a frame. -/
def remapPix (frame : Paletted) (m : List Nat) : Option (List Byte) :=
  remapLoop frame m (List.replicate frame.pix.length 0) (loopPoints frame.rect)

/-- The loop of lines 167-192 over the frames after the primary one.  The
argument `primary` is `primaryFrame.Palette` on entry; the result is that
palette on exit and the frames appended to `frames`.  Line 190 gives a frame
the primary palette as it is when the frame is done. -/
def unifyRest (primary : List Color) : List Paletted → Option (List Color × List Paletted)
  | [] => some (primary, [])
  | frame :: rest =>
    match remapPix frame (buildMap primary frame.palette).2 with
    | none => none
    | some p =>
      match unifyRest (buildMap primary frame.palette).1 rest with
      | none => none
      | some (final, out) =>
        some (final, { frame with pix := p, palette := (buildMap primary frame.palette).1 } :: out)

/-- Lines 164-192.  `frames[0]` is the pointer `primaryFrame`, so it shows
the primary palette as it is after the whole loop. -/
def unify : List Paletted → Option (List Paletted)
  | [] => none
  | primaryFrame :: rest =>
    match unifyRest primaryFrame.palette rest with
    | none => none
    | some (final, out) => some ({ primaryFrame with palette := final } :: out)

/-! ## Explicit-colour images and `image/draw` -/

/-- Go `image.RGBA`: the bounds and the colour stored for each point.  The
byte layout of `Pix` is not modelled; `pix x y` is the colour of the four
bytes at `PixOffset(x, y)`. -/
structure RGBAImage where
  rect : Rectangle
  pix : Int → Int → Color

/-- Method `RGBA.At`: the zero colour outside the bounds. -/
def RGBAImage.At (i : RGBAImage) (x y : Int) : Color :=
  if Point.In ⟨x, y⟩ i.rect then i.pix x y else transparent

/-- The colour `draw.Draw` reads from a paletted source at `(x, y)`, through
method `Paletted.RGBA64At`: the zero colour when the palette is empty, entry
0 outside the bounds, and `Palette[Pix[i]]` inside.  `none` is a panic:
`Pix[i]` out of range, or `Palette[Pix[i]]` out of range. -/
def Paletted.At (p : Paletted) (x y : Int) : Option Color :=
  if p.palette.length = 0 then some transparent
  else if !(Point.In ⟨x, y⟩ p.rect) then p.palette[0]?
  else
    match sliceAt p.pix (p.PixOffset x y) with
    | none => none
    | some v => p.palette[v.val]?

/-- The colour a caller gets from `p.At(x, y).RGBA()` of the `image.Image`
interface: as `Paletted.RGBA64At`, but on an empty palette `At` returns the
nil colour and the call of `.RGBA()` panics. -/
def Paletted.AtRGBA (p : Paletted) (x y : Int) : Option Color :=
  if p.palette.length = 0 then none else p.At x y

/-- An element of the slice `frames` (line 133): a `*image.Paletted` or a
`*image.RGBA`. -/
inductive Image where
  | paletted (p : Paletted)
  | rgba (i : RGBAImage)

/-- Method `Bounds` of an image. -/
def Image.Bounds : Image → Rectangle
  | .paletted p => p.rect
  | .rgba i => i.rect

/-- The 16-bit channels `draw.Draw` reads from a source image at `(x, y)`:
through `RGBA64At` for a `*image.Paletted`, from the stored bytes for a
`*image.RGBA`; `none` is a panic. -/
def Image.At : Image → Int → Int → Option ColorKey
  | .paletted p, x, y => (p.At x y).map Color.RGBA
  | .rgba i, x, y => some (i.At x y).RGBA

/-- Go `image.Rect`: the rectangle with the coordinates put in order. -/
def Rect (x0 y0 x1 y1 : Int) : Rectangle :=
  ⟨⟨if x0 > x1 then x1 else x0, if y0 > y1 then y1 else y0⟩,
   ⟨if x0 > x1 then x0 else x1, if y0 > y1 then y0 else y1⟩⟩

/-- Go `image.NewRGBA`: an image of zero bytes; `none` is the panic on a
negative width or height. -/
def NewRGBA (r : Rectangle) : Option RGBAImage :=
  if r.Dx < 0 ∨ r.Dy < 0 then none else some ⟨r, fun _ _ => transparent⟩

/-- The compositing operators of `image/draw`. -/
inductive Op where
  | over
  | src
deriving DecidableEq, Repr

/-- One channel of the `Src` case of `draw.drawRGBA` with no mask:
`uint8(s * ma / m >> 8)` with `ma = m = 65535`, in `uint32`. -/
def srcChannel (s : Nat) : Byte :=
  toByte ((s * 65535 % 2 ^ 32) / 65535 / 256)

/-- One channel of the `Over` case of `draw.Draw` on a `*image.RGBA`
destination with no mask: `a := (m - sa) * 0x101` and
`uint8((d * a / m + s) >> 8)` with `m = 65535`, in `uint32`. -/
def overChannel (d : Byte) (s sa : Nat) : Byte :=
  let a := ((65535 + 2 ^ 32 - sa % 2 ^ 32) % 2 ^ 32) * 257 % 2 ^ 32
  toByte (((d.val * a % 2 ^ 32) / 65535 + s) % 2 ^ 32 / 256)

/-- The four bytes written by `draw.Draw` on a `*image.RGBA` destination for
the destination colour `d` and the 16-bit source value `s` read at the
source point. -/
def drawPixel (op : Op) (d : Color) (s : ColorKey) : Color :=
  match op with
  | .src => ⟨srcChannel s.1, srcChannel s.2.1, srcChannel s.2.2.1, srcChannel s.2.2.2⟩
  | .over =>
    ⟨overChannel d.r s.1 s.2.2.2, overChannel d.g s.2.1 s.2.2.2,
     overChannel d.b s.2.2.1 s.2.2.2, overChannel d.a s.2.2.2 s.2.2.2⟩

/-- Function `clip` of `image/draw` with no mask: the clipped rectangle and
the source point moved with it. -/
def clip (dstBounds r srcBounds : Rectangle) (sp : Point) : Rectangle × Point :=
  let r1 := r.Intersect dstBounds
  let r2 := r1.Intersect (srcBounds.Add ⟨r.min.x - sp.x, r.min.y - sp.y⟩)
  (r2, ⟨sp.x + (r2.min.x - r.min.x), sp.y + (r2.min.y - r.min.y)⟩)

/-- The points of a rectangle, row by row. -/
def rectPoints (r : Rectangle) : List Point :=
  ((List.range r.Dy.toNat).map (fun (dy : Nat) =>
    (List.range r.Dx.toNat).map (fun (dx : Nat) =>
      (⟨r.min.x + Int.ofNat dx, r.min.y + Int.ofNat dy⟩ : Point)))).flatten

/-- Go `draw.Draw(dst, r, src, sp, op)` for a `*image.RGBA` destination:
clip, then for every point of the clipped rectangle combine the destination
bytes with the channels read from the source at `(sx, sy)`.  `none` when a
source read panics. -/
def Draw (dst : RGBAImage) (r : Rectangle) (src : Image) (sp : Point) (op : Op) :
    Option RGBAImage :=
  let r1 := (clip dst.rect r src.Bounds sp).1
  let sp1 := (clip dst.rect r src.Bounds sp).2
  if r1.Empty then some dst
  else if (rectPoints r1).all (fun pt =>
      (src.At (sp1.x + (pt.x - r1.min.x)) (sp1.y + (pt.y - r1.min.y))).isSome) then
    some ⟨dst.rect, fun x y =>
      if Point.In ⟨x, y⟩ r1 then
        match src.At (sp1.x + (x - r1.min.x)) (sp1.y + (y - r1.min.y)) with
        | some s => drawPixel op (dst.pix x y) s
        | none => dst.pix x y
      else dst.pix x y⟩
  else none

/-! ## Truecolor Promoter (`main.go`, lines 135-141) and strategy selection -/

/-- Lines 138-139 for one frame. -/
def promote (frame : Paletted) : Option RGBAImage :=
  match NewRGBA frame.rect with
  | none => none
  | some img => Draw img frame.rect (.paletted frame) frame.rect.min .src

/-- The loop of lines 137-141. -/
def promoteAll : List Paletted → Option (List Image)
  | [] => some []
  | frame :: rest =>
    match promote frame with
    | none => none
    | some img =>
      match promoteAll rest with
      | none => none
      | some out => some (Image.rgba img :: out)

/-- Lines 84-198 of `handleOne`: the slice `frames` after the unification
step, or `none` when the program panics before. -/
def unifyStep (imgs : List Paletted) : Option (List Image) :=
  match mustRepalettize imgs with
  | none => none
  | some must =>
    if exceedsBudget imgs then promoteAll imgs
    else if must then (unify imgs).map (fun out => out.map Image.paletted)
    else some (imgs.map Image.paletted)

/-! ## Geometry Normalizer (`makeSquare` and lines 205-217) -/

/-- Function `makeSquare` (lines 248-263). -/
def makeSquare (img : Image) (newWidth newHeight : Int) (fillColor : Color) :
    Option RGBAImage :=
  match NewRGBA (Rect 0 0 newWidth newHeight) with
  | none => none
  | some squareImg =>
    Draw
      ⟨squareImg.rect, fun x y =>
        if 0 ≤ x ∧ x < newWidth ∧ 0 ≤ y ∧ y < newHeight ∧ Point.In ⟨x, y⟩ squareImg.rect
        then fillColor else squareImg.pix x y⟩
      img.Bounds img ⟨0, 0⟩ .over

/-- The conversion `int(u)` of a `uint`. -/
def toInt (u : Nat) : Int :=
  if u % 2 ^ 64 < 2 ^ 63 then ((u % 2 ^ 64 : Nat) : Int) else ((u % 2 ^ 64 : Nat) : Int) - 2 ^ 64

/-- The image stored in an output frame: an element of `frames`, a padded
canvas, or the result of the Lanczos resampling of one of these to
`width x height`, whose pixel values (floating point) are not modelled. -/
inductive StoredImage where
  | same (img : Image)
  | resized (width height : Int) (src : Image)

/-- Method `Bounds` of a stored image; a resampled image is allocated with
`image.Rect(0, 0, width, height)`. -/
def StoredImage.Bounds : StoredImage → Rectangle
  | .same img => img.Bounds
  | .resized width height _ => Rect 0 0 width height

/-- Whether every point of the bounds of an image can be read through
`img.At(x, y).RGBA()`, as the resampler of `nfnt/resize` reads its source: a
`*image.RGBA` always can, a `*image.Paletted` needs a palette that is not
empty and, at every point, a byte in `Pix` that is a position of the
palette. -/
def Image.Readable : Image → Bool
  | .paletted p => (rectPoints p.rect).all (fun pt => (p.AtRGBA pt.x pt.y).isSome)
  | .rgba _ => true

/-- The call `resize.Resize(side, side, img, resize.Lanczos3)` of the
library `nfnt/resize`, as far as the size of its result goes.  A zero `side`
asks for the source's own size (both scale factors are `1.0`), equal sizes
return the source, so does a source with no pixels, and otherwise a new
image of `int(side) x int(side)` is allocated and filled from the pixels of
the source.  `none` is a panic: a negative `int(side)`, or a source that
cannot be read at some point of its bounds. -/
def Resize (side : Nat) (img : Image) : Option StoredImage :=
  let width : Int := if side % 2 ^ 64 = 0 then img.Bounds.Dx else toInt side
  let height : Int := if side % 2 ^ 64 = 0 then img.Bounds.Dy else toInt side
  if width = img.Bounds.Dx ∧ height = img.Bounds.Dy then some (.same img)
  else if img.Bounds.Dx ≤ 0 ∨ img.Bounds.Dy ≤ 0 then some (.same img)
  else if width < 0 ∨ height < 0 then none
  else if img.Readable then some (.resized width height img)
  else none

/-- Lines 205-212: the frame padded to a square when its sides differ. -/
def squareFrame (img : Image) : Option Image :=
  if img.Bounds.Dx ≠ img.Bounds.Dy then
    if img.Bounds.Dx > img.Bounds.Dy then
      (makeSquare img img.Bounds.Dx img.Bounds.Dx transparent).map Image.rgba
    else
      (makeSquare img img.Bounds.Dy img.Bounds.Dy transparent).map Image.rgba
  else some img

/-- Lines 205-217: `currentFrameImg` after the padding and the size limit. -/
def normalizeFrame (MaxDim : Nat) (img : Image) : Option StoredImage :=
  match squareFrame img with
  | none => none
  | some sq => if sq.Bounds.Dx > toInt MaxDim then Resize MaxDim sq else some (.same sq)

/-! ## Frame Assembler (`main.go`, lines 200-232) -/

/-- The decoded animation `*gif.GIF`, as far as `handleOne` reads it. -/
structure GIF where
  image : List Paletted
  delay : List Int
  disposal : List Byte
  loopCount : Int

/-- Go `apng.Frame`, as far as `handleOne` writes it. -/
structure Frame where
  image : StoredImage
  xOffset : Int
  yOffset : Int
  delayNumerator : Nat
  disposeOp : Nat
  blendOp : Nat

/-- Go `apng.APNG`. -/
structure APNG where
  frames : List Frame
  loopCount : Nat

/-- Constant `gif.DisposalNone`. -/
def DisposalNone : Byte := 1
/-- Constant `gif.DisposalBackground`. -/
def DisposalBackground : Byte := 2
/-- Constant `gif.DisposalPrevious`. -/
def DisposalPrevious : Byte := 3
/-- Constant `apng.DISPOSE_OP_NONE`. -/
def DISPOSE_OP_NONE : Nat := 0
/-- Constant `apng.DISPOSE_OP_BACKGROUND`. -/
def DISPOSE_OP_BACKGROUND : Nat := 1
/-- Constant `apng.DISPOSE_OP_PREVIOUS`. -/
def DISPOSE_OP_PREVIOUS : Nat := 2
/-- Constant `apng.BLEND_OP_OVER`. -/
def BLEND_OP_OVER : Nat := 1

/-- The `switch` of lines 223-230 on a frame whose `DisposeOp` is still the
zero value. -/
def disposeOpOf (d : Byte) : Nat :=
  if d = DisposalNone then DISPOSE_OP_NONE
  else if d = DisposalBackground then DISPOSE_OP_BACKGROUND
  else if d = DisposalPrevious then DISPOSE_OP_PREVIOUS
  else 0

/-- The body of the loop of lines 202-232 for `frames[i]`. -/
def assembleFrame (MaxDim : Nat) (g : GIF) (i : Nat) (img : Image) : Option Frame :=
  match normalizeFrame MaxDim img with
  | none => none
  | some cur =>
    match g.delay[i]?, g.disposal[i]? with
    | some d, some disp =>
      some
        { image := cur
          xOffset := cur.Bounds.min.x
          yOffset := cur.Bounds.min.y
          delayNumerator := (d % 65536).toNat
          disposeOp := disposeOpOf disp
          blendOp := BLEND_OP_OVER }
    | _, _ => none

/-- The loop of lines 202-232 from index `i` on. -/
def assembleFrom (MaxDim : Nat) (g : GIF) : Nat → List Image → Option (List Frame)
  | _, [] => some []
  | i, img :: rest =>
    match assembleFrame MaxDim g i img with
    | none => none
    | some f =>
      match assembleFrom MaxDim g (i + 1) rest with
      | none => none
      | some fs => some (f :: fs)

/-- The animation handed to the encoder by `handleOne` (lines 84-232), for
the decoded animation `g` and the flag `MaxDim`. -/
def handleOne (MaxDim : Nat) (g : GIF) : Option APNG :=
  match unifyStep g.image with
  | none => none
  | some frames =>
    match assembleFrom MaxDim g 0 frames with
    | none => none
    | some fs => some { frames := fs, loopCount := (g.loopCount % 2 ^ 64).toNat }

/-! ## Auxiliary notions used in the statements -/

/-- All the keys of all the palettes, in scan order. -/
def allKeys (imgs : List Paletted) : List ColorKey :=
  (imgs.map (fun img => img.palette.map Color.RGBA)).flatten

/-- What the scan of one palette leaves in the map. -/
structure ScanInv (u r : List ColorKey) (keys : List ColorKey) : Prop where
  nodup : r.Nodup
  mono : ∀ x ∈ u, x ∈ r
  sound : ∀ x ∈ r, x ∈ u ∨ x ∈ keys
  complete : r.length ≤ 256 → ∀ x ∈ keys, x ∈ r

/-- Two palettes differ at position `k`. -/
def Differ (pi pj : List Color) (k : Nat) : Prop :=
  ∃ c1 c2, pi[k]? = some c1 ∧ pj[k]? = some c2 ∧ c1.RGBA ≠ c2.RGBA

/-! ## Example inputs -/

/-- Opaque red. -/
def red : Color := ⟨255, 0, 0, 255⟩
/-- Opaque green. -/
def green : Color := ⟨0, 255, 0, 255⟩
/-- Opaque blue. -/
def blue : Color := ⟨0, 0, 255, 255⟩

/-- A frame of one pixel at the origin, of index 0, with the given palette. -/
def onePixel (palette : List Color) : Paletted :=
  ⟨[0], 1, ⟨⟨0, 0⟩, ⟨1, 1⟩⟩, palette⟩

/-- Three one-pixel frames with the palettes `{red}`, `{green}`, `{blue}`. -/
def threeFrames : List Paletted := [onePixel [red], onePixel [green], onePixel [blue]]

/-- Two frames with local colour tables of 4 and of 2 entries, the second a
strictly shorter initial segment of the first. -/
def shorterSecond : List Paletted :=
  [onePixel [transparent, red, green, blue], onePixel [transparent, red]]

/-- The palette of an element of `frames`, when it is indexed. -/
def Image.palette? : Image → Option (List Color)
  | .paletted p => some p.palette
  | .rgba _ => none

/-- The shape of a frame as the decoder `gif.DecodeAll` builds it: a buffer
from `image.NewPaletted` (stride equal to the width, one byte per point), a
colour table of 1 to 256 entries, and every index inside the table. -/
def Paletted.Decoded (p : Paletted) : Prop :=
  0 ≤ p.rect.Dx ∧ 0 ≤ p.rect.Dy ∧ p.stride = p.rect.Dx ∧
    (p.pix.length : Int) = p.rect.Dx * p.rect.Dy ∧
    (∀ v ∈ p.pix, v.val < p.palette.length) ∧
    0 < p.palette.length ∧ p.palette.length ≤ 256

instance (p : Paletted) : Decidable p.Decoded := by
  unfold Paletted.Decoded
  infer_instance

/-- An element `img` of `frames` is the explicit-colour copy of the indexed
frame `frame`: an `*image.RGBA` with the bounds of `frame` whose colour at
every point of the bounds is the palette entry of `frame` at the index stored
for that point. -/
def PromotedFrom (frame : Paletted) (img : Image) : Prop :=
  ∃ r : RGBAImage, img = Image.rgba r ∧ r.rect = frame.rect ∧
    ∀ x y : Int, Point.In ⟨x, y⟩ frame.rect = true →
      ∃ (v : Byte) (c : Color), sliceAt frame.pix (frame.PixOffset x y) = some v ∧
        frame.palette[v.val]? = some c ∧ r.pix x y = c

/-- A colour table of 256 entries, all different: red runs over `0 .. 255`
under the given green. -/
def rampPalette (g : Byte) : List Color :=
  (List.range 256).map (fun (i : Nat) => (⟨toByte i, g, 0, 255⟩ : Color))

/-- Two one-pixel frames whose colour tables hold 512 distinct colours. -/
def manyColors : List Paletted := [onePixel (rampPalette 0), onePixel (rampPalette 1)]

/-- A decoded frame one pixel wide and two high whose bounds start at
`(1, 0)`, both pixels red. -/
def shiftedFrame : Paletted := ⟨[1, 1], 1, ⟨⟨1, 0⟩, ⟨2, 2⟩⟩, [transparent, red]⟩

/-- A decoded square frame of one red pixel whose bounds start at `(3, 4)`. -/
def offsetSquare : Paletted := ⟨[1], 1, ⟨⟨3, 4⟩, ⟨4, 5⟩⟩, [transparent, red]⟩

/-- An animation of the single frame `offsetSquare`. -/
def offsetSquareGIF : GIF := ⟨[offsetSquare], [10], [DisposalNone], 0⟩

/-- An animation of a single one-pixel frame at the origin. -/
def onePixelGIF : GIF := ⟨[onePixel [transparent, red]], [10], [DisposalNone], 0⟩

/-- The animation `handleOne` builds from `offsetSquareGIF` with
`MaxDim = 1024`. -/
def offsetSquareAPNG : APNG :=
  { frames := [{ image := .same (.paletted offsetSquare)
                 xOffset := 3
                 yOffset := 4
                 delayNumerator := 10
                 disposeOp := DISPOSE_OP_NONE
                 blendOp := BLEND_OP_OVER }]
    loopCount := 0 }

/-- The offsets of the descriptor `fr` built for the element `img` of
`frames`: they are the origin of the stored image's bounds, which is `(0, 0)`
for a frame that was padded or resampled and the origin of `img` for a square
frame within `MaxDim`, stored as it is. -/
def OffsetsFollowBounds (MaxDim : Nat) (img : Image) (fr : Frame) : Prop :=
  fr.xOffset = fr.image.Bounds.min.x ∧ fr.yOffset = fr.image.Bounds.min.y ∧
  (img.Bounds.Dx ≠ img.Bounds.Dy → (0 ≤ img.Bounds.Dx ∨ 0 ≤ img.Bounds.Dy) →
    fr.xOffset = 0 ∧ fr.yOffset = 0) ∧
  (∀ (w h : Int) (src : Image), fr.image = .resized w h src →
    fr.xOffset = 0 ∧ fr.yOffset = 0) ∧
  (img.Bounds.Dx = img.Bounds.Dy → img.Bounds.Dx ≤ toInt MaxDim →
    fr.image = .same img ∧ fr.xOffset = img.Bounds.min.x ∧ fr.yOffset = img.Bounds.min.y)

/-- The colour `img.At(x, y)` of an element of `frames`; `none` is a panic. -/
def Image.colorAt : Image → Int → Int → Option Color
  | .paletted p, x, y => p.At x y
  | .rgba i, x, y => some (i.At x y)

/-- An animation of one frame with the loop count `-1` ("show each frame
once"), which the decoder gives to a file with no loop extension. -/
def playOnceGIF : GIF := ⟨[onePixel [transparent, red]], [10], [DisposalNone], -1⟩

/-- The specification's channel-distance metric: the sum of the squared
per-channel differences of two colours. -/
def sqDist (c e : Color) : Int :=
  ((c.r.val : Int) - e.r.val) ^ 2 + ((c.g.val : Int) - e.g.val) ^ 2 +
    ((c.b.val : Int) - e.b.val) ^ 2 + ((c.a.val : Int) - e.a.val) ^ 2

/-- The value `sum` of Go `color.Palette.Index` for the colour `c` and the
palette entry `v`, before the reduction to `uint32`. -/
def indexSum (c v : Color) : Nat :=
  sqDiff c.RGBA.1 v.RGBA.1 + sqDiff c.RGBA.2.1 v.RGBA.2.1 +
    sqDiff c.RGBA.2.2.1 v.RGBA.2.2.1 + sqDiff c.RGBA.2.2.2 v.RGBA.2.2.2

/-- A palette of 256 entries: the colours `(i, 0, 0, 255)` for
`i = 0 .. 255`. -/
def fullPalette : List Color := rampPalette 0

/-- Whether the loop of lines 172-180 takes the `else` branch of line 176 for
some entry: `insertColorEntry` returned an error and the nearest entry was
taken instead. -/
def buildMapFallback (primary : List Color) : List Color → Bool
  | [] => false
  | c :: cs =>
    match insertColorEntry primary c with
    | (primary1, some _) => buildMapFallback primary1 cs
    | (_, none) => true

/-- Whether the loop of lines 167-192 takes the `else` branch of line 176 for
some entry of some frame. -/
def unifyRestFallback (primary : List Color) : List Paletted → Bool
  | [] => false
  | frame :: rest =>
    buildMapFallback primary frame.palette ||
      unifyRestFallback (buildMap primary frame.palette).1 rest

/-- Whether the Unify path reaches the nearest-entry fallback. -/
def fallbackReached : List Paletted → Bool
  | [] => false
  | primaryFrame :: rest => unifyRestFallback primaryFrame.palette rest

/-- No more than 256 different colours can be picked from the list `U`. -/
def Bounded (U : List Color) : Prop :=
  ∀ l : List Color, l.Nodup → (∀ x ∈ l, x ∈ U) → l.length ≤ 256

/-- All the entries of all the palettes. -/
def allColors (imgs : List Paletted) : List Color :=
  (imgs.map (fun img => img.palette)).flatten

/-- The frame `g` is the frame `f` after the Unify loop, which ended with the
primary palette `final`: bounds, stride and buffer length are kept, the
assigned palette is an initial segment of `final`, and every index of the
new buffer is a position of the assigned palette. -/
def UnifiedFrom (final : List Color) (f g : Paletted) : Prop :=
  g.rect = f.rect ∧ g.stride = f.stride ∧ g.pix.length = f.pix.length ∧
    (∃ t, final = g.palette ++ t) ∧ ∀ b ∈ g.pix, b.val < g.palette.length

/-- The frame `g` shows the colours of the frame `f`: same bounds and stride,
and at every point of the bounds where `f` stores an index `v`, `g` stores an
index `w` whose colour in the palette of `g` is the colour of `v` in the
palette of `f`. -/
def ColourKept (f g : Paletted) : Prop :=
  g.rect = f.rect ∧ g.stride = f.stride ∧
    ∀ x y : Int, Point.In ⟨x, y⟩ f.rect = true →
      ∀ v : Byte, sliceAt f.pix (f.PixOffset x y) = some v →
        ∃ (w : Byte) (c : Color), sliceAt g.pix (g.PixOffset x y) = some w ∧
          f.palette[v.val]? = some c ∧ g.palette[w.val]? = some c

/-- The slice `frames` the Unify path builds from `threeFrames`. -/
def threeFramesOut : List Image :=
  [.paletted ⟨[0], 1, ⟨⟨0, 0⟩, ⟨1, 1⟩⟩, [red, green, blue]⟩,
   .paletted ⟨[1], 1, ⟨⟨0, 0⟩, ⟨1, 1⟩⟩, [red, green]⟩,
   .paletted ⟨[2], 1, ⟨⟨0, 0⟩, ⟨1, 1⟩⟩, [red, green, blue]⟩]

/-- Two one-pixel frames with two distinct colours in all, the first with a
colour table of 256 entries that are all red. -/
def dupPrimary : List Paletted :=
  [onePixel (List.replicate 256 red), onePixel [blue, red]]

/-- The canvas `c` is the frame `f` padded to `s x s`: bounds
`(0,0)-(s,s)`, at every point of the bounds of `f` the colour `f` shows there
(its index resolved through its palette), and full transparency elsewhere. -/
def PaddedFrom (f : Paletted) (s : Int) (c : RGBAImage) : Prop :=
  c.rect = ⟨⟨0, 0⟩, ⟨s, s⟩⟩ ∧
  (∀ x y : Int, Point.In ⟨x, y⟩ f.rect = true →
    ∃ col, f.At x y = some col ∧ c.pix x y = col) ∧
  (∀ x y : Int, Point.In ⟨x, y⟩ f.rect = false → c.pix x y = transparent)

/-- Scenario A, first frame: 10 x 20 at the origin, palette
`{transparent, red}`, every pixel red. -/
def scenarioA1 : Paletted :=
  ⟨List.replicate 200 1, 10, ⟨⟨0, 0⟩, ⟨10, 20⟩⟩, [transparent, red]⟩

/-- Scenario A, second frame: 20 x 10 at the origin, palette
`{transparent, blue}`, every pixel blue. -/
def scenarioA2 : Paletted :=
  ⟨List.replicate 200 1, 20, ⟨⟨0, 0⟩, ⟨20, 10⟩⟩, [transparent, blue]⟩

/-- Scenario A as a decoded animation. -/
def scenarioAGIF : GIF :=
  ⟨[scenarioA1, scenarioA2], [10, 10], [DisposalNone, DisposalNone], 0⟩

/-- A decoded animation of three one-pixel frames with the three disposal
methods the program names and three different delays, the last one the
largest the 16-bit delay field of a Graphic Control Extension holds. -/
def threeDisposalsGIF : GIF :=
  ⟨[onePixel [transparent, red], onePixel [transparent, red], onePixel [transparent, red]],
    [10, 20, 65535], [DisposalNone, DisposalBackground, DisposalPrevious], 0⟩

/-- The animation `handleOne` builds from `threeDisposalsGIF` with
`MaxDim = 1024`. -/
def threeDisposalsAPNG : APNG :=
  { frames :=
      [{ image := .same (.paletted (onePixel [transparent, red])), xOffset := 0, yOffset := 0,
         delayNumerator := 10, disposeOp := DISPOSE_OP_NONE, blendOp := BLEND_OP_OVER },
       { image := .same (.paletted (onePixel [transparent, red])), xOffset := 0, yOffset := 0,
         delayNumerator := 20, disposeOp := DISPOSE_OP_BACKGROUND, blendOp := BLEND_OP_OVER },
       { image := .same (.paletted (onePixel [transparent, red])), xOffset := 0, yOffset := 0,
         delayNumerator := 65535, disposeOp := DISPOSE_OP_PREVIOUS, blendOp := BLEND_OP_OVER }]
    loopCount := 0 }

/-! # Properties -/

theorem channels_ne_iff (c1 c2 : Color) :
    (c1.RGBA.1 ≠ c2.RGBA.1 ∨ c1.RGBA.2.1 ≠ c2.RGBA.2.1 ∨
      c1.RGBA.2.2.1 ≠ c2.RGBA.2.2.1 ∨ c1.RGBA.2.2.2 ≠ c2.RGBA.2.2.2) ↔ c1.RGBA ≠ c2.RGBA := by
  constructor
  · intro h he
    rw [he] at h
    simp at h
  · intro h
    by_contra hc
    apply h
    simp only [not_or, not_not, ne_eq] at hc
    obtain ⟨h1, h2, h3, h4⟩ := hc
    exact Prod.ext h1 (Prod.ext h2 (Prod.ext h3 h4))

theorem loopK_spec (pi pj : List Color) (ks : List Nat)
    (hks : ∀ k ∈ ks, k < pi.length ∧ k < pj.length) :
    ∃ b, loopK pi pj ks = some b ∧ (b = true ↔ ∃ k ∈ ks, Differ pi pj k) := by
  induction ks with
  | nil => exact ⟨false, rfl, by simp⟩
  | cons k ks ih =>
    obtain ⟨h1, h2⟩ := hks k (List.mem_cons_self k ks)
    obtain ⟨b, hb, hiff⟩ := ih (fun k' hk' => hks k' (List.mem_cons_of_mem k hk'))
    have e1 : pi[k]? = some pi[k] := List.getElem?_eq_getElem h1
    have e2 : pj[k]? = some pj[k] := List.getElem?_eq_getElem h2
    simp only [loopK, e1, e2]
    by_cases hd : pi[k].RGBA ≠ pj[k].RGBA
    · rw [if_pos ((channels_ne_iff _ _).2 hd)]
      refine ⟨true, rfl, ?_⟩
      simp only [true_iff]
      exact ⟨k, List.mem_cons_self k ks, pi[k], pj[k], e1, e2, hd⟩
    · rw [if_neg (fun h => hd ((channels_ne_iff _ _).1 h))]
      refine ⟨b, hb, hiff.trans ?_⟩
      constructor
      · rintro ⟨k', hk', h⟩
        exact ⟨k', List.mem_cons_of_mem k hk', h⟩
      · rintro ⟨k', hk', h⟩
        rcases List.mem_cons.1 hk' with rfl | hk'
        · obtain ⟨c1, c2, h3, h4, h5⟩ := h
          rw [e1] at h3; rw [e2] at h4
          cases h3; cases h4
          exact absurd h5 hd
        · exact ⟨k', hk', h⟩

theorem loopJ_spec (imgs : List Paletted) (frameIdx : Nat) (pi : List Color) (js : List Nat)
    (hjs : ∀ j ∈ js, j < imgs.length)
    (hlen : ∀ f ∈ imgs, f.palette.length = pi.length) :
    ∃ b, loopJ imgs frameIdx pi js = some b ∧
      (b = true ↔ ∃ j ∈ js, j ≠ frameIdx ∧ ∃ fj, imgs[j]? = some fj ∧
        ∃ k, Differ pi fj.palette k) := by
  induction js with
  | nil => exact ⟨false, rfl, by simp⟩
  | cons j js ih =>
    obtain ⟨b, hb, hiff⟩ := ih (fun j' hj' => hjs j' (List.mem_cons_of_mem j hj'))
    have hj := hjs j (List.mem_cons_self j js)
    have e1 : imgs[j]? = some imgs[j] := List.getElem?_eq_getElem hj
    simp only [loopJ]
    by_cases hji : j = frameIdx
    · rw [if_pos hji]
      refine ⟨b, hb, hiff.trans ?_⟩
      constructor
      · rintro ⟨j', hj', h⟩
        exact ⟨j', List.mem_cons_of_mem j hj', h⟩
      · rintro ⟨j', hj', hne, h⟩
        rcases List.mem_cons.1 hj' with rfl | hj'
        · exact absurd hji hne
        · exact ⟨j', hj', hne, h⟩
    · rw [if_neg hji]
      simp only [e1]
      have hl : imgs[j].palette.length = pi.length := hlen _ (List.getElem_mem hj)
      obtain ⟨bk, hbk, hkiff⟩ := loopK_spec pi imgs[j].palette (List.range pi.length)
        (fun k hk => by rw [List.mem_range] at hk; omega)
      rw [hbk]
      cases bk with
      | true =>
        refine ⟨true, rfl, ?_⟩
        simp only [true_iff]
        obtain ⟨k, _, hk⟩ := hkiff.1 rfl
        exact ⟨j, List.mem_cons_self j js, hji, imgs[j], e1, k, hk⟩
      | false =>
        refine ⟨b, hb, hiff.trans ?_⟩
        constructor
        · rintro ⟨j', hj', h⟩
          exact ⟨j', List.mem_cons_of_mem j hj', h⟩
        · rintro ⟨j', hj', hne, fj, hfj, k, hk⟩
          rcases List.mem_cons.1 hj' with rfl | hj'
          · rw [e1] at hfj
            cases hfj
            have hkr : k ∈ List.range pi.length := by
              obtain ⟨c1, c2, h3, _, _⟩ := hk
              rw [List.mem_range]
              exact (List.getElem?_eq_some_iff.1 h3).1
            have := hkiff.2 ⟨k, hkr, hk⟩
            exact absurd this (by simp)
          · exact ⟨j', hj', hne, fj, hfj, k, hk⟩

theorem loopFrames_spec (imgs : List Paletted) (n : Nat)
    (hlen : ∀ f ∈ imgs, f.palette.length = n) (idxs : List Nat)
    (hidx : ∀ i ∈ idxs, i < imgs.length) (maxLen : Int)
    (hmax : maxLen = -1 ∨ maxLen = (n : Int)) :
    ∃ b, loopFrames imgs maxLen idxs = some b ∧
      (b = true ↔ ∃ i ∈ idxs, ∃ fi, imgs[i]? = some fi ∧
        ∃ j ∈ List.range imgs.length, j ≠ i ∧ ∃ fj, imgs[j]? = some fj ∧
          ∃ k, Differ fi.palette fj.palette k) := by
  induction idxs generalizing maxLen with
  | nil => exact ⟨false, rfl, by simp⟩
  | cons i idxs ih =>
    have hi := hidx i (List.mem_cons_self i idxs)
    have e1 : imgs[i]? = some imgs[i] := List.getElem?_eq_getElem hi
    have hl : imgs[i].palette.length = n := hlen _ (List.getElem_mem hi)
    have hm : (if maxLen = -1 then (imgs[i].palette.length : Int) else maxLen) = (n : Int) := by
      rcases hmax with h | h
      · rw [if_pos h, hl]
      · rw [if_neg (by omega), h]
    obtain ⟨b, hb, hiff⟩ := ih (fun i' hi' => hidx i' (List.mem_cons_of_mem i hi')) (n : Int)
      (Or.inr rfl)
    simp only [loopFrames, e1, hm]
    rw [if_neg (by rw [hl]; simp)]
    obtain ⟨bj, hbj, hjiff⟩ := loopJ_spec imgs i imgs[i].palette (List.range imgs.length)
      (fun j hj => List.mem_range.1 hj) (fun f hf => by rw [hlen f hf, hl])
    rw [hbj]
    cases bj with
    | true =>
      refine ⟨true, rfl, ?_⟩
      simp only [true_iff]
      exact ⟨i, List.mem_cons_self i idxs, imgs[i], e1, hjiff.1 rfl⟩
    | false =>
      refine ⟨b, hb, hiff.trans ?_⟩
      constructor
      · rintro ⟨i', hi', h⟩
        exact ⟨i', List.mem_cons_of_mem i hi', h⟩
      · rintro ⟨i', hi', fi, hfi, h⟩
        rcases List.mem_cons.1 hi' with rfl | hi'
        · rw [e1] at hfi
          cases hfi
          exact absurd (hjiff.2 h) (by simp)
        · exact ⟨i', hi', fi, hfi, h⟩

/-- The checker on palettes of one length: it does not panic and reports a
mismatch exactly when two frames differ at some palette position. -/
theorem mustRepalettize_spec (imgs : List Paletted) (n : Nat)
    (hlen : ∀ f ∈ imgs, f.palette.length = n) :
    ∃ b, mustRepalettize imgs = some b ∧
      (b = true ↔ ∃ fi ∈ imgs, ∃ fj ∈ imgs, ∃ k, Differ fi.palette fj.palette k) := by
  obtain ⟨b, hb, hiff⟩ := loopFrames_spec imgs n hlen (List.range imgs.length)
    (fun i hi => List.mem_range.1 hi) (-1) (Or.inl rfl)
  refine ⟨b, hb, hiff.trans ?_⟩
  constructor
  · rintro ⟨i, _, fi, hfi, j, _, _, fj, hfj, k, hk⟩
    exact ⟨fi, List.getElem?_mem hfi, fj, List.getElem?_mem hfj, k, hk⟩
  · rintro ⟨fi, hfi, fj, hfj, k, hk⟩
    obtain ⟨i, hi, rfl⟩ := List.getElem_of_mem hfi
    obtain ⟨j, hj, rfl⟩ := List.getElem_of_mem hfj
    refine ⟨i, List.mem_range.2 hi, imgs[i], List.getElem?_eq_getElem hi, j,
      List.mem_range.2 hj, ?_, imgs[j], List.getElem?_eq_getElem hj, k, hk⟩
    rintro rfl
    obtain ⟨c1, c2, h3, h4, h5⟩ := hk
    rw [h3] at h4
    cases h4
    exact h5 rfl

theorem loopFrames_false_lengths (imgs : List Paletted) (idxs : List Nat) :
    ∀ maxLen : Int, maxLen ≠ -1 → loopFrames imgs maxLen idxs = some false →
      ∀ i ∈ idxs, ∀ f, imgs[i]? = some f → (f.palette.length : Int) = maxLen := by
  induction idxs with
  | nil => intro _ _ _ i hi; cases hi
  | cons i0 rest ih =>
    intro maxLen hne h i hi f hf
    simp only [loopFrames] at h
    cases h0 : imgs[i0]? with
    | none => rw [h0] at h; cases h
    | some fi =>
      rw [h0] at h
      simp only [if_neg hne] at h
      by_cases hl : (fi.palette.length : Int) ≠ maxLen
      · rw [if_pos hl] at h; cases h
      · rw [if_neg hl] at h
        cases hj : loopJ imgs i0 fi.palette (List.range imgs.length) with
        | none => rw [hj] at h; cases h
        | some b =>
          rw [hj] at h
          cases b with
          | true => cases h
          | false =>
            rcases List.mem_cons.1 hi with rfl | hi
            · rw [h0] at hf
              cases hf
              exact not_not.1 hl
            · exact ih maxLen hne h i hi f hf

/-- Apart from the panic, the checker answers a length mismatch as the spec
says: it never yields `false` when a palette length differs from that of the
first frame. -/
theorem mustRepalettize_length_mismatch (f0 : Paletted) (rest : List Paletted)
    (h : ∃ f ∈ rest, f.palette.length ≠ f0.palette.length) :
    mustRepalettize (f0 :: rest) ≠ some false := by
  intro hres
  obtain ⟨f, hf, hlen⟩ := h
  unfold mustRepalettize at hres
  have hr : List.range (f0 :: rest).length = 0 :: (List.range rest.length).map (· + 1) := by
    rw [List.length_cons, List.range_succ_eq_map]
  rw [hr] at hres
  simp only [loopFrames, List.getElem?_cons_zero, if_true, ne_eq, not_true_eq_false,
    if_false] at hres
  cases hj : loopJ (f0 :: rest) 0 f0.palette (List.range (f0 :: rest).length) with
  | none => rw [hj] at hres; cases hres
  | some b =>
    rw [hj] at hres
    cases b with
    | true => cases hres
    | false =>
      obtain ⟨i, hi, rfl⟩ := List.getElem_of_mem hf
      have := loopFrames_false_lengths (f0 :: rest) _ (f0.palette.length : Int) (by omega) hres
        (i + 1) (List.mem_map.2 ⟨i, List.mem_range.2 hi, rfl⟩) rest[i]
        (by simp [List.getElem?_eq_getElem hi])
      exact hlen (by exact_mod_cast this)

/-! ## The Color Budget Analyzer -/

theorem mem_insertKey (u : List ColorKey) (k x : ColorKey) :
    x ∈ insertKey u k ↔ x ∈ u ∨ x = k := by
  unfold insertKey
  by_cases h : k ∈ u
  · simp only [h, if_true]
    constructor
    · intro hx; exact Or.inl hx
    · rintro (hx | rfl)
      · exact hx
      · exact h
  · simp [h]

theorem nodup_insertKey (u : List ColorKey) (k : ColorKey) (hu : u.Nodup) :
    (insertKey u k).Nodup := by
  unfold insertKey
  by_cases h : k ∈ u
  · simpa [h] using hu
  · simp only [h, if_false]
    rw [List.nodup_append]
    refine ⟨hu, List.nodup_singleton k, ?_⟩
    intro a ha hb
    rw [List.mem_singleton] at hb
    exact h (hb ▸ ha)

theorem scanPalette_inv (ps : List Color) :
    ∀ u : List ColorKey, u.Nodup → ScanInv u (scanPalette u ps) (ps.map Color.RGBA) := by
  induction ps with
  | nil =>
    intro u hu
    exact ⟨hu, fun x hx => hx, fun x hx => Or.inl hx, fun _ x hx => by simp at hx⟩
  | cons p ps ih =>
    intro u hu
    have hn := nodup_insertKey u p.RGBA hu
    simp only [scanPalette]
    by_cases hlen : (insertKey u p.RGBA).length > 256
    · rw [if_pos hlen]
      refine ⟨hn, ?_, ?_, ?_⟩
      · intro x hx; exact (mem_insertKey u p.RGBA x).2 (Or.inl hx)
      · intro x hx
        rcases (mem_insertKey u p.RGBA x).1 hx with h | h
        · exact Or.inl h
        · exact Or.inr (by simp [h])
      · intro h; omega
    · rw [if_neg hlen]
      have h := ih (insertKey u p.RGBA) hn
      refine ⟨h.nodup, ?_, ?_, ?_⟩
      · intro x hx; exact h.mono x ((mem_insertKey u p.RGBA x).2 (Or.inl hx))
      · intro x hx
        rcases h.sound x hx with h1 | h1
        · rcases (mem_insertKey u p.RGBA x).1 h1 with h2 | h2
          · exact Or.inl h2
          · exact Or.inr (by simp [h2])
        · exact Or.inr (by simp only [List.map_cons, List.mem_cons]; exact Or.inr h1)
      · intro hle x hx
        simp only [List.map_cons, List.mem_cons] at hx
        rcases hx with rfl | hx
        · exact h.mono _ ((mem_insertKey u p.RGBA _).2 (Or.inr rfl))
        · exact h.complete hle x hx

theorem scanFrames_inv (imgs : List Paletted) :
    ∀ u : List ColorKey, u.Nodup → ScanInv u (scanFrames u imgs) (allKeys imgs) := by
  induction imgs with
  | nil =>
    intro u hu
    exact ⟨hu, fun x hx => hx, fun x hx => Or.inl hx, fun _ x hx => by simp [allKeys] at hx⟩
  | cons img rest ih =>
    intro u hu
    have h1 := scanPalette_inv img.palette u hu
    have hk : allKeys (img :: rest) = img.palette.map Color.RGBA ++ allKeys rest := by
      simp [allKeys]
    simp only [scanFrames]
    by_cases hlen : (scanPalette u img.palette).length > 256
    · rw [if_pos hlen, hk]
      refine ⟨h1.nodup, h1.mono, ?_, ?_⟩
      · intro x hx
        rcases h1.sound x hx with h | h
        · exact Or.inl h
        · exact Or.inr (List.mem_append.2 (Or.inl h))
      · intro h; omega
    · rw [if_neg hlen, hk]
      have h2 := ih (scanPalette u img.palette) h1.nodup
      refine ⟨h2.nodup, fun x hx => h2.mono x (h1.mono x hx), ?_, ?_⟩
      · intro x hx
        rcases h2.sound x hx with h | h
        · rcases h1.sound x h with h' | h'
          · exact Or.inl h'
          · exact Or.inr (List.mem_append.2 (Or.inl h'))
        · exact Or.inr (List.mem_append.2 (Or.inr h))
      · intro hle x hx
        rcases List.mem_append.1 hx with h | h
        · exact h2.mono x (h1.complete (by omega) x h)
        · exact h2.complete hle x h

theorem distinctColorCount_eq (imgs : List Paletted) :
    distinctColorCount imgs = (allKeys imgs).dedup.length := rfl

/-- The scan exceeds the budget exactly when the full count does. -/
theorem uniqueColors_length_gt_iff (imgs : List Paletted) :
    (uniqueColors imgs).length > 256 ↔ distinctColorCount imgs > 256 := by
  have h := scanFrames_inv imgs [] List.nodup_nil
  rw [distinctColorCount_eq]
  have hsub : (uniqueColors imgs) ⊆ (allKeys imgs).dedup := by
    intro x hx
    rcases h.sound x hx with h1 | h1
    · simp at h1
    · exact List.mem_dedup.2 h1
  have hle : (uniqueColors imgs).length ≤ (allKeys imgs).dedup.length :=
    (List.subperm_of_subset h.nodup hsub).length_le
  constructor
  · intro hgt; omega
  · intro hgt
    by_contra hcon
    have hle2 : (uniqueColors imgs).length ≤ 256 := by omega
    have hsub2 : (allKeys imgs).dedup ⊆ uniqueColors imgs := by
      intro x hx
      exact h.complete hle2 x (List.mem_dedup.1 hx)
    have := (List.subperm_of_subset (List.nodup_dedup _) hsub2).length_le
    omega

theorem exceedsBudget_iff_budget (imgs : List Paletted) :
    exceedsBudget imgs = true ↔ distinctColorCount imgs > 256 := by
  unfold exceedsBudget
  rw [decide_eq_true_iff]
  exact uniqueColors_length_gt_iff imgs

/-- C3: the early exit of the colour scan does not change the promotion test:
`len(uniqueColors) > 256` after the short-circuiting scan holds exactly when
the number of distinct RGBA 4-tuples of all palettes is greater than 256. -/
theorem exceedsBudget_iff_distinctColorCount (imgs : List Paletted) :
    exceedsBudget imgs = true ↔ distinctColorCount imgs > 256 := by
  unfold exceedsBudget
  rw [decide_eq_true_iff]
  exact uniqueColors_length_gt_iff imgs

/-! ## The Palette Uniformity Checker -/

/-- C4 (failing input): on two frames whose palettes have 4 and 2 entries, the
second an initial segment of the first, the checker loop reads
`g.Image[1].Palette[2]` at `frameIdx = 0`, `j = 1`, `k = 2`, before the
length of that palette has been compared: the loop panics instead of
yielding `mustRepalettize = true`. -/
theorem mustRepalettize_shorterSecond_panics : mustRepalettize shorterSecond = none := by
  decide

/-- C5: when all palettes have the same length, the checker yields a value,
and it is `true` exactly when two frames have, at some index position, palette
colours whose RGBA 4-tuples differ. -/
theorem mustRepalettize_iff_palettes_differ (imgs : List Paletted) (n : Nat)
    (hlen : ∀ f ∈ imgs, f.palette.length = n) :
    ∃ b, mustRepalettize imgs = some b ∧
      (b = true ↔ ∃ fi ∈ imgs, ∃ fj ∈ imgs, ∃ (k : Nat) (c1 c2 : Color),
        fi.palette[k]? = some c1 ∧ fj.palette[k]? = some c2 ∧ c1.RGBA ≠ c2.RGBA) :=
  mustRepalettize_spec imgs n hlen

/-- C5 (witness): two one-pixel frames with the palettes `{red}` and
`{green}`. -/
theorem mustRepalettize_iff_palettes_differ_witness :
    (∀ f ∈ [onePixel [red], onePixel [green]], f.palette.length = 1) ∧
    ∃ b, mustRepalettize [onePixel [red], onePixel [green]] = some b ∧
      (b = true ↔ ∃ fi ∈ [onePixel [red], onePixel [green]],
        ∃ fj ∈ [onePixel [red], onePixel [green]], ∃ (k : Nat) (c1 c2 : Color),
        fi.palette[k]? = some c1 ∧ fj.palette[k]? = some c2 ∧ c1.RGBA ≠ c2.RGBA) :=
  ⟨by decide, mustRepalettize_iff_palettes_differ [onePixel [red], onePixel [green]] 1
    (by decide)⟩

/-! ## The Palette Unifier -/

/-- C1 (failing input): on three one-pixel frames with the palettes `{red}`,
`{green}`, `{blue}` the Unify path is taken and leaves the palettes
`[red, green, blue]`, `[red, green]`, `[red, green, blue]`: the second frame
keeps the two entries the primary palette had when line 190 ran. -/
theorem unifyStep_threeFrames_palettes :
    mustRepalettize threeFrames = some true ∧ exceedsBudget threeFrames = false ∧
    (unifyStep threeFrames).map (fun out => out.map Image.palette?) =
      some [some [red, green, blue], some [red, green], some [red, green, blue]] := by
  decide

theorem insertColorEntry_length_le (palette : List Color) (c : Color)
    (h : palette.length ≤ 256) : (insertColorEntry palette c).1.length ≤ 256 := by
  unfold insertColorEntry
  cases palette.findIdx? (fun entry => sameRGBA c entry) with
  | some i => exact h
  | none =>
    by_cases hfull : palette.length ≥ 256
    · simp only [hfull, if_true]; exact h
    · simp only [hfull, if_false, List.length_append, List.length_singleton]
      omega

theorem buildMap_length_le (cs : List Color) :
    ∀ primary : List Color, primary.length ≤ 256 → (buildMap primary cs).1.length ≤ 256 := by
  induction cs with
  | nil => intro primary h; exact h
  | cons c cs ih =>
    intro primary h
    have h1 := insertColorEntry_length_le primary c h
    unfold buildMap
    rcases hins : insertColorEntry primary c with ⟨primary1, _ | newIndex⟩
    · rw [hins] at h1; exact ih primary1 h1
    · rw [hins] at h1; exact ih primary1 h1

theorem unifyRest_length_le (rest : List Paletted) :
    ∀ (primary final : List Color) (out : List Paletted), primary.length ≤ 256 →
      unifyRest primary rest = some (final, out) →
      final.length ≤ 256 ∧ ∀ f ∈ out, f.palette.length ≤ 256 := by
  induction rest with
  | nil =>
    intro primary final out h hres
    simp only [unifyRest, Option.some.injEq, Prod.mk.injEq] at hres
    obtain ⟨rfl, rfl⟩ := hres
    exact ⟨h, by simp⟩
  | cons frame rest ih =>
    intro primary final out h hres
    have hb := buildMap_length_le frame.palette primary h
    unfold unifyRest at hres
    cases hp : remapPix frame (buildMap primary frame.palette).2 with
    | none => rw [hp] at hres; cases hres
    | some p =>
      rw [hp] at hres
      cases hr : unifyRest (buildMap primary frame.palette).1 rest with
      | none => rw [hr] at hres; cases hres
      | some fo =>
        obtain ⟨final1, out1⟩ := fo
        rw [hr] at hres
        simp only [Option.some.injEq, Prod.mk.injEq] at hres
        obtain ⟨rfl, rfl⟩ := hres
        obtain ⟨h1, h2⟩ := ih _ _ _ hb hr
        refine ⟨h1, ?_⟩
        intro f hf
        rcases List.mem_cons.1 hf with rfl | hf
        · exact hb
        · exact h2 f hf

theorem unify_length_le (imgs out : List Paletted)
    (hpal : ∀ f ∈ imgs, f.palette.length ≤ 256) (hres : unify imgs = some out) :
    ∀ f ∈ out, f.palette.length ≤ 256 := by
  cases imgs with
  | nil => cases hres
  | cons primaryFrame rest =>
    simp only [unify] at hres
    cases hr : unifyRest primaryFrame.palette rest with
    | none => rw [hr] at hres; cases hres
    | some fo =>
      obtain ⟨final, out1⟩ := fo
      rw [hr] at hres
      simp only [Option.some.injEq] at hres
      subst hres
      obtain ⟨h1, h2⟩ := unifyRest_length_le rest _ _ _
        (hpal primaryFrame (List.mem_cons_self _ _)) hr
      intro f hf
      rcases List.mem_cons.1 hf with rfl | hf
      · exact h1
      · exact h2 f hf

theorem exceedsBudget_eq_false_iff (imgs : List Paletted) :
    exceedsBudget imgs = false ↔ distinctColorCount imgs ≤ 256 := by
  rw [← Bool.not_eq_true, Iff.comm, ← not_lt]
  exact not_congr (uniqueColors_length_gt_iff imgs).symm |>.trans
    (not_congr (by unfold exceedsBudget; rw [decide_eq_true_iff]))

/-- C2: when every input palette has at most 256 entries and the indexed path
is taken (the distinct-colour count is at most 256), every frame the
unification step yields is indexed with a palette of at most 256 entries, and
`insertColorEntry` never takes a palette of at most 256 entries beyond 256. -/
theorem indexed_path_palettes_le_256 (imgs : List Paletted)
    (hpal : ∀ f ∈ imgs, f.palette.length ≤ 256) (hbudget : distinctColorCount imgs ≤ 256) :
    (∀ out, unifyStep imgs = some out →
      ∀ img ∈ out, ∃ p, img = Image.paletted p ∧ p.palette.length ≤ 256) ∧
    (∀ (palette : List Color) (c : Color), palette.length ≤ 256 →
      (insertColorEntry palette c).1.length ≤ 256) := by
  refine ⟨?_, insertColorEntry_length_le⟩
  intro out hout img himg
  have hb := (exceedsBudget_eq_false_iff imgs).2 hbudget
  unfold unifyStep at hout
  cases hm : mustRepalettize imgs with
  | none => rw [hm] at hout; cases hout
  | some must =>
    rw [hm] at hout
    simp only [hb] at hout
    cases must with
    | true =>
      simp only [if_true, Bool.false_eq_true, if_false] at hout
      cases hu : unify imgs with
      | none => rw [hu] at hout; cases hout
      | some out1 =>
      rw [hu] at hout
      simp only [Option.map_some', Option.some.injEq] at hout
      subst hout
      obtain ⟨p, hp, rfl⟩ := List.mem_map.1 himg
      exact ⟨p, rfl, unify_length_le imgs out1 hpal hu p hp⟩
    | false =>
      simp only [Bool.false_eq_true, if_false, Option.some.injEq] at hout
      subst hout
      obtain ⟨p, hp, rfl⟩ := List.mem_map.1 himg
      exact ⟨p, rfl, hpal p hp⟩

/-- C2 (witness): the three one-pixel frames, which take the Unify path. -/
theorem indexed_path_palettes_le_256_witness :
    (∀ f ∈ threeFrames, f.palette.length ≤ 256) ∧ distinctColorCount threeFrames ≤ 256 ∧
    (unifyStep threeFrames).isSome = true ∧
    ((∀ out, unifyStep threeFrames = some out →
      ∀ img ∈ out, ∃ p, img = Image.paletted p ∧ p.palette.length ≤ 256) ∧
    (∀ (palette : List Color) (c : Color), palette.length ≤ 256 →
      (insertColorEntry palette c).1.length ≤ 256)) :=
  ⟨by decide, by decide, by decide,
    indexed_path_palettes_le_256 threeFrames (by decide) (by decide)⟩

/-- The pass-through branch: within budget and with equal palettes the frames
come back as they are. -/
theorem unifyStep_passthrough (imgs : List Paletted) (hbudget : distinctColorCount imgs ≤ 256)
    (hsame : ∀ f ∈ imgs, ∀ g ∈ imgs, f.palette = g.palette) :
    mustRepalettize imgs = some false ∧ exceedsBudget imgs = false ∧
      unifyStep imgs = some (imgs.map Image.paletted) := by
  have hb := (exceedsBudget_eq_false_iff imgs).2 hbudget
  have hm : mustRepalettize imgs = some false := by
    cases imgs with
    | nil => rfl
    | cons f0 rest =>
      obtain ⟨b, hb1, hiff⟩ := mustRepalettize_spec (f0 :: rest) f0.palette.length
        (fun f hf => by rw [hsame f hf f0 (List.mem_cons_self _ _)])
      cases b with
      | false => exact hb1
      | true =>
        obtain ⟨fi, hfi, fj, hfj, k, c1, c2, h1, h2, h3⟩ := hiff.1 rfl
        rw [hsame fi hfi fj hfj, h2] at h1
        cases h1
        exact absurd rfl h3
  refine ⟨hm, hb, ?_⟩
  unfold unifyStep
  rw [hm]
  simp [hb]

/-- C6: when the palettes hold at most 256 distinct colours and all frames
have the same palette, the checker yields `false`, the budget test is
`false`, and the unification step returns the input frames, in order, each
with its index buffer and palette unchanged. -/
theorem unifyStep_noop (imgs : List Paletted) (hbudget : distinctColorCount imgs ≤ 256)
    (hsame : ∀ f ∈ imgs, ∀ g ∈ imgs, f.palette = g.palette) :
    mustRepalettize imgs = some false ∧ exceedsBudget imgs = false ∧
      unifyStep imgs = some (imgs.map Image.paletted) :=
  unifyStep_passthrough imgs hbudget hsame

/-- C6 (witness): two one-pixel frames with the same two-entry palette. -/
theorem unifyStep_noop_witness :
    distinctColorCount [onePixel [transparent, red], onePixel [transparent, red]] ≤ 256 ∧
    (∀ f ∈ [onePixel [transparent, red], onePixel [transparent, red]],
      ∀ g ∈ [onePixel [transparent, red], onePixel [transparent, red]],
        f.palette = g.palette) ∧
    (mustRepalettize [onePixel [transparent, red], onePixel [transparent, red]] = some false ∧
      exceedsBudget [onePixel [transparent, red], onePixel [transparent, red]] = false ∧
      unifyStep [onePixel [transparent, red], onePixel [transparent, red]] =
        some ([onePixel [transparent, red], onePixel [transparent, red]].map Image.paletted)) :=
  ⟨by decide, by decide,
    unifyStep_noop [onePixel [transparent, red], onePixel [transparent, red]]
      (by decide) (by decide)⟩

/-! ## Rectangles and `draw.Draw` -/

theorem In_iff (x y : Int) (r : Rectangle) :
    Point.In ⟨x, y⟩ r = true ↔ r.min.x ≤ x ∧ x < r.max.x ∧ r.min.y ≤ y ∧ y < r.max.y := by
  simp [Point.In, and_assoc]

theorem Empty_iff (r : Rectangle) :
    r.Empty = true ↔ r.min.x ≥ r.max.x ∨ r.min.y ≥ r.max.y := by
  simp [Rectangle.Empty]

theorem mem_rectPoints (r : Rectangle) (pt : Point) :
    pt ∈ rectPoints r ↔ Point.In pt r = true := by
  obtain ⟨x, y⟩ := pt
  rw [In_iff]
  unfold rectPoints
  rw [List.mem_flatten]
  constructor
  · rintro ⟨l, hl, hpt⟩
    rw [List.mem_map] at hl
    obtain ⟨dy, hdy, rfl⟩ := hl
    rw [List.mem_map] at hpt
    obtain ⟨dx, hdx, hpt⟩ := hpt
    rw [List.mem_range] at hdx hdy
    have h1 := Int.lt_toNat.1 hdx
    have h2 := Int.lt_toNat.1 hdy
    simp only [Point.mk.injEq, Rectangle.Dx, Rectangle.Dy, Int.ofNat_eq_coe] at hpt h1 h2
    omega
  · rintro ⟨h1, h2, h3, h4⟩
    have ey : (((y - r.min.y).toNat : Nat) : Int) = y - r.min.y :=
      Int.toNat_of_nonneg (by omega)
    have ex : (((x - r.min.x).toNat : Nat) : Int) = x - r.min.x :=
      Int.toNat_of_nonneg (by omega)
    refine ⟨_, List.mem_map.2 ⟨(y - r.min.y).toNat, List.mem_range.2 (Int.lt_toNat.2 ?_), rfl⟩,
      List.mem_map.2 ⟨(x - r.min.x).toNat, List.mem_range.2 (Int.lt_toNat.2 ?_), ?_⟩⟩
    · rw [ey]; simp only [Rectangle.Dy]; omega
    · rw [ex]; simp only [Rectangle.Dx]; omega
    · simp only [Int.ofNat_eq_coe, ex, ey, Point.mk.injEq]
      omega

theorem srcChannel_widen (v : Byte) : srcChannel (v.val * 257) = v := by
  apply Fin.ext
  have h := v.isLt
  have h1 : v.val * 257 * 65535 % 2 ^ 32 = v.val * 257 * 65535 :=
    Nat.mod_eq_of_lt (by omega)
  have h2 : v.val * 257 / 256 = v.val := by omega
  simp only [srcChannel, toByte, h1, Nat.mul_div_cancel _ (show 0 < 65535 by decide), h2]
  omega

theorem drawPixel_src (d c : Color) : drawPixel .src d c.RGBA = c := by
  simp [drawPixel, Color.RGBA, srcChannel_widen]

theorem Intersect_self (r : Rectangle) : r.Intersect r = if r.Empty then ZR else r := by
  simp [Rectangle.Intersect]

theorem Add_sub_self (r : Rectangle) (p : Point) : r.Add ⟨p.x - p.x, p.y - p.y⟩ = r := by
  simp [Rectangle.Add]

theorem Add_zero (r : Rectangle) : r.Add ⟨0, 0⟩ = r := by
  simp [Rectangle.Add]

theorem ZR_Empty : ZR.Empty = true := by decide

theorem clip_self (r : Rectangle) (h : r.Empty = false) : clip r r r r.min = (r, r.min) := by
  simp [clip, Intersect_self, Add_sub_self, Add_zero, h]

theorem clip_self_Empty (r : Rectangle) (h : r.Empty = true) :
    (clip r r r r.min).1.Empty = true := by
  have hz : ZR.Intersect r = ZR := by
    rw [Empty_iff] at h
    simp only [Rectangle.Intersect, ZR]
    rw [if_pos]
    rw [Empty_iff]
    simp only
    split_ifs <;> omega
  simp [clip, Intersect_self, Add_sub_self, Add_zero, h, hz, ZR_Empty]

theorem Paletted.At_isSome (p : Paletted) (x y : Int) (hne : p.palette ≠ [])
    (hin : Point.In ⟨x, y⟩ p.rect = true) (h : (p.At x y).isSome = true) :
    ∃ (v : Byte) (c : Color), sliceAt p.pix (p.PixOffset x y) = some v ∧
      p.palette[v.val]? = some c ∧ p.At x y = some c := by
  unfold Paletted.At at h ⊢
  by_cases h0 : p.palette.length = 0
  · exact absurd (List.length_eq_zero.1 h0) hne
  · simp only [h0, if_false, hin, Bool.not_true, Bool.false_eq_true] at h ⊢
    cases hs : sliceAt p.pix (p.PixOffset x y) with
    | none => simp [hs] at h
    | some v =>
      simp only [hs] at h ⊢
      cases hc : p.palette[v.val]? with
      | none => simp [hc] at h
      | some c => exact ⟨v, c, rfl, hc, rfl⟩

/-- What `promote` returns, when it returns. -/
theorem promote_spec (frame : Paletted) (img : RGBAImage) (hne : frame.palette ≠ [])
    (h : promote frame = some img) : PromotedFrom frame (Image.rgba img) := by
  unfold promote NewRGBA at h
  by_cases hneg : frame.rect.Dx < 0 ∨ frame.rect.Dy < 0
  · simp [hneg] at h
  · simp only [hneg, if_false] at h
    unfold Draw at h
    simp only [Image.Bounds] at h
    cases he : frame.rect.Empty with
    | true =>
      rw [if_pos (clip_self_Empty frame.rect he)] at h
      simp only [Option.some.injEq] at h
      subst h
      refine ⟨_, rfl, rfl, ?_⟩
      intro x y hin
      rw [In_iff] at hin
      rw [Empty_iff] at he
      omega
    | false =>
      rw [clip_self frame.rect he] at h
      simp only [he, Bool.false_eq_true, if_false] at h
      by_cases hall : (rectPoints frame.rect).all (fun pt =>
          ((Image.paletted frame).At (frame.rect.min.x + (pt.x - frame.rect.min.x))
            (frame.rect.min.y + (pt.y - frame.rect.min.y))).isSome) = true
      · rw [if_pos hall] at h
        simp only [Option.some.injEq] at h
        subst h
        refine ⟨_, rfl, rfl, ?_⟩
        intro x y hin
        have hpt := (List.all_eq_true.1 hall) ⟨x, y⟩ ((mem_rectPoints _ _).2 hin)
        have ex : frame.rect.min.x + (x - frame.rect.min.x) = x := by omega
        have ey : frame.rect.min.y + (y - frame.rect.min.y) = y := by omega
        simp only [ex, ey, Image.At, Option.isSome_map'] at hpt
        obtain ⟨v, c, hv, hc, hat⟩ := Paletted.At_isSome frame x y hne hin hpt
        refine ⟨v, c, hv, hc, ?_⟩
        simp only [hin, if_true, ex, ey, Image.At, hat, Option.map_some', drawPixel_src]
      · rw [if_neg hall] at h
        cases h

theorem Decoded_At_isSome (p : Paletted) (hd : p.Decoded) (x y : Int)
    (hin : Point.In ⟨x, y⟩ p.rect = true) : (p.At x y).isSome = true := by
  obtain ⟨hx, hy, hs, hl, hv, hp, _⟩ := hd
  rw [In_iff] at hin
  obtain ⟨h1, h2, h3, h4⟩ := hin
  have hoff0 : 0 ≤ p.PixOffset x y := by
    unfold Paletted.PixOffset
    rw [hs]
    have : 0 ≤ (y - p.rect.min.y) * p.rect.Dx := mul_nonneg (by omega) hx
    omega
  have hoff1 : p.PixOffset x y < (p.pix.length : Int) := by
    unfold Paletted.PixOffset
    rw [hs, hl]
    have hle : (y - p.rect.min.y + 1) * p.rect.Dx ≤ p.rect.Dy * p.rect.Dx :=
      mul_le_mul_of_nonneg_right (by unfold Rectangle.Dy; omega) hx
    have hdx : x - p.rect.min.x < p.rect.Dx := by unfold Rectangle.Dx; omega
    have e1 : (y - p.rect.min.y + 1) * p.rect.Dx =
        (y - p.rect.min.y) * p.rect.Dx + p.rect.Dx := by ring
    have e2 : p.rect.Dy * p.rect.Dx = p.rect.Dx * p.rect.Dy := by ring
    omega
  have hlt : (p.PixOffset x y).toNat < p.pix.length := by
    have := Int.toNat_of_nonneg hoff0
    omega
  unfold Paletted.At
  have hin2 : Point.In ⟨x, y⟩ p.rect = true := (In_iff x y p.rect).2 ⟨h1, h2, h3, h4⟩
  simp only [hin2, Bool.not_true, Bool.false_eq_true, if_false, sliceAt]
  rw [if_neg (by omega), if_neg (by omega), List.getElem?_eq_getElem hlt]
  simp only
  rw [List.getElem?_eq_getElem (hv _ (List.getElem_mem hlt))]
  rfl

theorem promote_isSome (frame : Paletted) (hd : frame.Decoded) :
    ∃ img, promote frame = some img := by
  unfold promote NewRGBA
  have hneg : ¬ (frame.rect.Dx < 0 ∨ frame.rect.Dy < 0) := by
    have h1 := hd.1
    have h2 := hd.2.1
    omega
  simp only [hneg, if_false]
  unfold Draw
  simp only [Image.Bounds]
  cases he : frame.rect.Empty with
  | true =>
    rw [if_pos (clip_self_Empty frame.rect he)]
    exact ⟨_, rfl⟩
  | false =>
    rw [clip_self frame.rect he]
    simp only [he, Bool.false_eq_true, if_false]
    rw [if_pos]
    · exact ⟨_, rfl⟩
    · rw [List.all_eq_true]
      rintro ⟨x, y⟩ hpt
      have hin := (mem_rectPoints _ _).1 hpt
      have ex : frame.rect.min.x + (x - frame.rect.min.x) = x := by omega
      have ey : frame.rect.min.y + (y - frame.rect.min.y) = y := by omega
      simp only [ex, ey, Image.At, Option.isSome_map']
      exact Decoded_At_isSome frame hd x y hin

theorem promoteAll_spec (imgs : List Paletted) (hpal : ∀ f ∈ imgs, f.palette ≠ []) :
    ∀ out, promoteAll imgs = some out → List.Forall₂ PromotedFrom imgs out := by
  induction imgs with
  | nil =>
    intro out h
    simp only [promoteAll, Option.some.injEq] at h
    subst h
    exact List.Forall₂.nil
  | cons frame rest ih =>
    intro out h
    simp only [promoteAll] at h
    cases hp : promote frame with
    | none => rw [hp] at h; cases h
    | some img =>
      rw [hp] at h
      cases hr : promoteAll rest with
      | none => rw [hr] at h; cases h
      | some out1 =>
        rw [hr] at h
        simp only [Option.some.injEq] at h
        subst h
        exact List.Forall₂.cons
          (promote_spec frame img (hpal frame (List.mem_cons_self _ _)) hp)
          (ih (fun f hf => hpal f (List.mem_cons_of_mem _ hf)) out1 hr)

theorem promoteAll_isSome (imgs : List Paletted) (hd : ∀ f ∈ imgs, f.Decoded) :
    ∃ out, promoteAll imgs = some out := by
  induction imgs with
  | nil => exact ⟨[], rfl⟩
  | cons frame rest ih =>
    obtain ⟨img, himg⟩ := promote_isSome frame (hd frame (List.mem_cons_self _ _))
    obtain ⟨out, hout⟩ := ih (fun f hf => hd f (List.mem_cons_of_mem _ hf))
    exact ⟨Image.rgba img :: out, by simp only [promoteAll, himg, hout]⟩

/-- C7: when the palettes hold more than 256 distinct colours (and every
frame has a colour table, as every decoded frame has), the frames the
unification step yields are, one for one and in order, explicit-colour images
with the bounds of their source frames, and every pixel is the entry of the
source frame's own palette at the source pixel's index.  The step does yield
such frames when the checker loop does not panic and the frames have the
shape the decoder gives them. -/
theorem promotion_explicit_colour (imgs : List Paletted) (h : distinctColorCount imgs > 256)
    (hpal : ∀ f ∈ imgs, f.palette ≠ []) :
    (∀ out, unifyStep imgs = some out → List.Forall₂ PromotedFrom imgs out) ∧
    (mustRepalettize imgs ≠ none → (∀ f ∈ imgs, f.Decoded) →
      ∃ out, unifyStep imgs = some out ∧ List.Forall₂ PromotedFrom imgs out) := by
  have hb : exceedsBudget imgs = true := (exceedsBudget_iff_budget imgs).2 h
  have hstep : ∀ must, mustRepalettize imgs = some must → unifyStep imgs = promoteAll imgs := by
    intro must hm
    unfold unifyStep
    rw [hm]
    simp only [hb, if_true]
  constructor
  · intro out hout
    cases hm : mustRepalettize imgs with
    | none =>
      unfold unifyStep at hout
      rw [hm] at hout
      cases hout
    | some must =>
      rw [hstep must hm] at hout
      exact promoteAll_spec imgs hpal out hout
  · intro hm hd
    cases hm1 : mustRepalettize imgs with
    | none => exact absurd hm1 hm
    | some must =>
      obtain ⟨out, hout⟩ := promoteAll_isSome imgs hd
      exact ⟨out, by rw [hstep must hm1]; exact hout, promoteAll_spec imgs hpal out hout⟩

theorem le_distinctColorCount (imgs : List Paletted) (l : List ColorKey) (hn : l.Nodup)
    (hs : ∀ k ∈ l, k ∈ allKeys imgs) : l.length ≤ distinctColorCount imgs := by
  rw [distinctColorCount_eq]
  exact (List.subperm_of_subset hn (fun k hk => List.mem_dedup.2 (hs k hk))).length_le

theorem manyColors_count : distinctColorCount manyColors > 256 := by
  have hn : ((rampPalette 0).map Color.RGBA ++ [Color.RGBA ⟨0, 1, 0, 255⟩]).Nodup := by
    rw [List.nodup_append]
    refine ⟨?_, List.nodup_singleton _, ?_⟩
    · unfold rampPalette
      rw [List.map_map]
      refine List.Nodup.map_on ?_ (List.nodup_range 256)
      intro x hx y hy hxy
      rw [List.mem_range] at hx hy
      simp only [Function.comp, Color.RGBA, toByte, Prod.mk.injEq] at hxy
      omega
    · intro a ha hb
      rw [List.mem_singleton] at hb
      subst hb
      simp [rampPalette, Color.RGBA] at ha
  have hlen := le_distinctColorCount manyColors _ hn (by
    intro k hk
    simp only [allKeys, manyColors, onePixel, List.map_cons, List.map_nil, List.flatten_cons,
      List.flatten_nil, List.append_nil, List.mem_append]
    rcases List.mem_append.1 hk with h | h
    · exact Or.inl h
    · right
      rw [List.mem_singleton] at h
      subst h
      exact List.mem_map.2 ⟨⟨0, 1, 0, 255⟩,
        List.mem_map.2 ⟨0, List.mem_range.2 (by decide), rfl⟩, rfl⟩)
  simp only [List.length_append, List.length_map, rampPalette, List.length_range,
    List.length_singleton] at hlen
  omega

set_option maxRecDepth 100000 in
/-- C7 (witness): two decoded one-pixel frames whose colour tables of 256
entries hold 512 distinct colours; the step yields their explicit-colour
copies. -/
theorem promotion_explicit_colour_witness :
    distinctColorCount manyColors > 256 ∧ (∀ f ∈ manyColors, f.palette ≠ []) ∧
    mustRepalettize manyColors ≠ none ∧ (∀ f ∈ manyColors, f.Decoded) ∧
    ∃ out, unifyStep manyColors = some out ∧ List.Forall₂ PromotedFrom manyColors out :=
  ⟨manyColors_count, by decide, by decide, by decide,
    (promotion_explicit_colour manyColors manyColors_count (by decide)).2
      (by decide) (by decide)⟩

/-! ## The Geometry Normalizer and the Frame Assembler -/

theorem Draw_rect (dst out : RGBAImage) (r : Rectangle) (src : Image) (sp : Point) (op : Op)
    (h : Draw dst r src sp op = some out) : out.rect = dst.rect := by
  unfold Draw at h
  simp only at h
  split_ifs at h
  · simp only [Option.some.injEq] at h; rw [← h]
  · simp only [Option.some.injEq] at h; rw [← h]

theorem makeSquare_rect (img : Image) (w h : Int) (c : Color) (out : RGBAImage)
    (hm : makeSquare img w h c = some out) : out.rect = Rect 0 0 w h := by
  unfold makeSquare NewRGBA at hm
  split_ifs at hm
  simp only at hm
  rw [Draw_rect _ _ _ _ _ _ hm]

theorem Rect_square (s : Int) :
    (Rect 0 0 s s).Dx = (Rect 0 0 s s).Dy ∧ (0 ≤ s → (Rect 0 0 s s).min = ⟨0, 0⟩) ∧
      (0 ≤ s → (Rect 0 0 s s).Dx = s) := by
  unfold Rect Rectangle.Dx Rectangle.Dy
  refine ⟨rfl, ?_, ?_⟩
  · intro hs
    simp only [show ¬ (0 > s) by omega, if_false]
  · intro hs
    simp only [show ¬ (0 > s) by omega, if_false]
    omega

/-- What the padding of lines 205-212 returns. -/
theorem squareFrame_spec (img sq : Image) (h : squareFrame img = some sq) :
    sq.Bounds.Dx = sq.Bounds.Dy ∧
    (img.Bounds.Dx = img.Bounds.Dy → sq = img) ∧
    (img.Bounds.Dx ≠ img.Bounds.Dy → (0 ≤ img.Bounds.Dx ∨ 0 ≤ img.Bounds.Dy) →
      sq.Bounds.min = ⟨0, 0⟩) := by
  unfold squareFrame at h
  by_cases hne : img.Bounds.Dx ≠ img.Bounds.Dy
  · rw [if_pos hne] at h
    by_cases hgt : img.Bounds.Dx > img.Bounds.Dy
    · rw [if_pos hgt] at h
      cases hm : makeSquare img img.Bounds.Dx img.Bounds.Dx transparent with
      | none => rw [hm] at h; cases h
      | some out =>
        rw [hm] at h
        simp only [Option.map_some', Option.some.injEq] at h
        subst h
        have hr : (Image.rgba out).Bounds = Rect 0 0 _ _ := makeSquare_rect _ _ _ _ _ hm
        rw [hr]
        refine ⟨(Rect_square _).1, fun he => absurd he hne, fun _ hnn => ?_⟩
        exact (Rect_square _).2.1 (by omega)
    · rw [if_neg hgt] at h
      cases hm : makeSquare img img.Bounds.Dy img.Bounds.Dy transparent with
      | none => rw [hm] at h; cases h
      | some out =>
        rw [hm] at h
        simp only [Option.map_some', Option.some.injEq] at h
        subst h
        have hr : (Image.rgba out).Bounds = Rect 0 0 _ _ := makeSquare_rect _ _ _ _ _ hm
        rw [hr]
        refine ⟨(Rect_square _).1, fun he => absurd he hne, fun _ hnn => ?_⟩
        exact (Rect_square _).2.1 (by omega)
  · rw [if_neg hne] at h
    simp only [Option.some.injEq] at h
    subst h
    have he : img.Bounds.Dx = img.Bounds.Dy := not_not.1 hne
    exact ⟨he, fun _ => rfl, fun hc => absurd he hc⟩

theorem toInt_le (u : Nat) : toInt u ≤ (u : Int) := by
  unfold toInt
  have h := Nat.mod_le u (2 ^ 64)
  split_ifs <;> omega

theorem toInt_of_lt (u : Nat) (h : u < 2 ^ 64) :
    toInt u = if u < 2 ^ 63 then (u : Int) else (u : Int) - 2 ^ 64 := by
  unfold toInt
  rw [Nat.mod_eq_of_lt h]

/-- What `Resize` returns: the source itself, or a resampled image of
`int(side) x int(side)` at the origin. -/
theorem Resize_spec (side : Nat) (img : Image) (cur : StoredImage)
    (h : Resize side img = some cur) :
    cur = .same img ∨
      (cur = .resized (toInt side) (toInt side) img ∧ 0 ≤ toInt side ∧ side % 2 ^ 64 ≠ 0 ∧
        0 < img.Bounds.Dx ∧ 0 < img.Bounds.Dy) := by
  unfold Resize at h
  simp only at h
  split_ifs at h with h0 h1 h2 h3 h4 h5
  all_goals first
    | (left; exact (Option.some.inj h).symm)
    | (right; refine ⟨(Option.some.inj h).symm, by omega, by assumption, by omega, by omega⟩)
    | (exfalso; apply h1; exact ⟨rfl, rfl⟩)

/-- What lines 205-217 leave in `currentFrameImg`. -/
theorem normalizeFrame_spec (MaxDim : Nat) (img : Image) (cur : StoredImage)
    (h : normalizeFrame MaxDim img = some cur) :
    ∃ sq, squareFrame img = some sq ∧
      ((cur = .same sq ∧ (sq.Bounds.Dx ≤ toInt MaxDim ∨ MaxDim % 2 ^ 64 = 0 ∨
          sq.Bounds.Dx ≤ 0 ∨ sq.Bounds.Dx = toInt MaxDim)) ∨
       (cur = .resized (toInt MaxDim) (toInt MaxDim) sq ∧ 0 ≤ toInt MaxDim ∧
          toInt MaxDim < sq.Bounds.Dx)) := by
  unfold normalizeFrame at h
  cases hs : squareFrame img with
  | none => rw [hs] at h; cases h
  | some sq =>
    rw [hs] at h
    simp only at h
    refine ⟨sq, rfl, ?_⟩
    have hsq := (squareFrame_spec img sq hs).1
    by_cases hgt : sq.Bounds.Dx > toInt MaxDim
    · rw [if_pos hgt] at h
      have hcopy := h
      rcases Resize_spec MaxDim sq cur h with hc | ⟨hc, h1, _, _, _⟩
      · left
        refine ⟨hc, ?_⟩
        unfold Resize at hcopy
        simp only at hcopy
        by_cases hz : MaxDim % 2 ^ 64 = 0
        · exact Or.inr (Or.inl hz)
        · simp only [hz, if_false] at hcopy
          split_ifs at hcopy with h2 h3 h4
          · exact Or.inr (Or.inr (Or.inr h2.1.symm))
          · right; right; left; omega
          · subst hc; cases hcopy
      · right
        exact ⟨hc, h1, hgt⟩
    · rw [if_neg hgt] at h
      left
      exact ⟨(Option.some.inj h).symm, Or.inl (by omega)⟩

theorem assembleFrame_spec (MaxDim : Nat) (g : GIF) (i : Nat) (img : Image) (fr : Frame)
    (h : assembleFrame MaxDim g i img = some fr) :
    normalizeFrame MaxDim img = some fr.image ∧ fr.xOffset = fr.image.Bounds.min.x ∧
      fr.yOffset = fr.image.Bounds.min.y := by
  unfold assembleFrame at h
  cases hn : normalizeFrame MaxDim img with
  | none => rw [hn] at h; cases h
  | some cur =>
    rw [hn] at h
    simp only at h
    split at h
    · simp only [Option.some.injEq] at h
      subst h
      exact ⟨rfl, rfl, rfl⟩
    · cases h

theorem assembleFrom_spec (MaxDim : Nat) (g : GIF) (frames : List Image) :
    ∀ (i : Nat) (fs : List Frame), assembleFrom MaxDim g i frames = some fs →
      List.Forall₂ (fun img fr => ∃ j, assembleFrame MaxDim g j img = some fr) frames fs := by
  induction frames with
  | nil =>
    intro i fs h
    simp only [assembleFrom, Option.some.injEq] at h
    subst h
    exact List.Forall₂.nil
  | cons img rest ih =>
    intro i fs h
    simp only [assembleFrom] at h
    cases hf : assembleFrame MaxDim g i img with
    | none => rw [hf] at h; cases h
    | some f =>
      rw [hf] at h
      cases hr : assembleFrom MaxDim g (i + 1) rest with
      | none => rw [hr] at h; cases h
      | some fs1 =>
        rw [hr] at h
        simp only [Option.some.injEq] at h
        subst h
        exact List.Forall₂.cons ⟨i, hf⟩ (ih (i + 1) fs1 hr)

theorem handleOne_spec (MaxDim : Nat) (g : GIF) (a : APNG) (h : handleOne MaxDim g = some a) :
    ∃ frames, unifyStep g.image = some frames ∧
      List.Forall₂ (fun img fr => ∃ j, assembleFrame MaxDim g j img = some fr) frames a.frames ∧
      a.loopCount = (g.loopCount % 2 ^ 64).toNat := by
  unfold handleOne at h
  cases hu : unifyStep g.image with
  | none => rw [hu] at h; cases h
  | some frames =>
    rw [hu] at h
    simp only at h
    cases hf : assembleFrom MaxDim g 0 frames with
    | none => rw [hf] at h; cases h
    | some fs =>
      rw [hf] at h
      simp only [Option.some.injEq] at h
      subst h
      exact ⟨frames, rfl, assembleFrom_spec MaxDim g frames 0 fs hf, rfl⟩

theorem forall₂_mem_right {α β : Type} {R : α → β → Prop} {l1 : List α} {l2 : List β}
    (h : List.Forall₂ R l1 l2) : ∀ b ∈ l2, ∃ a ∈ l1, R a b := by
  induction h with
  | nil => intro b hb; cases hb
  | cons hab _ ih =>
    intro b hb
    rcases List.mem_cons.1 hb with rfl | hb
    · exact ⟨_, List.mem_cons_self _ _, hab⟩
    · obtain ⟨a, ha, hr⟩ := ih b hb
      exact ⟨a, List.mem_cons_of_mem _ ha, hr⟩

theorem normalizeFrame_square (MaxDim : Nat) (hpos : 1 ≤ MaxDim) (huint : MaxDim < 2 ^ 64)
    (img : Image) (cur : StoredImage) (h : normalizeFrame MaxDim img = some cur) :
    cur.Bounds.Dx = cur.Bounds.Dy ∧ cur.Bounds.Dx ≤ (MaxDim : Int) := by
  obtain ⟨sq, hs, hcur⟩ := normalizeFrame_spec MaxDim img cur h
  have hsq := (squareFrame_spec img sq hs).1
  have hle := toInt_le MaxDim
  have hmod : MaxDim % 2 ^ 64 = MaxDim := Nat.mod_eq_of_lt huint
  rcases hcur with ⟨rfl, hc⟩ | ⟨rfl, h0, _⟩
  · refine ⟨hsq, ?_⟩
    simp only [StoredImage.Bounds]
    rcases hc with hc | hc | hc | hc <;> omega
  · simp only [StoredImage.Bounds]
    have hr := Rect_square (toInt MaxDim)
    exact ⟨hr.1, by rw [hr.2.2 h0]; exact hle⟩

theorem distinctColorCount_singleton_le (f : Paletted) :
    distinctColorCount [f] ≤ f.palette.length := by
  unfold distinctColorCount
  have h := (List.dedup_sublist (f.palette.map Color.RGBA)).length_le
  simpa using h

theorem Decoded_Readable (f : Paletted) (hd : f.Decoded) :
    (Image.paletted f).Readable = true := by
  unfold Image.Readable
  rw [List.all_eq_true]
  rintro ⟨x, y⟩ hpt
  have hpos := hd.2.2.2.2.2.1
  unfold Paletted.AtRGBA
  rw [if_neg (by omega)]
  exact Decoded_At_isSome f hd x y ((mem_rectPoints _ _).1 hpt)

theorem normalizeFrame_bigSquare (f : Paletted) (hd : f.Decoded) (hx : f.rect.Dx = 2000)
    (hy : f.rect.Dy = 2000) :
    normalizeFrame 1024 (Image.paletted f) =
      some (.resized 1024 1024 (Image.paletted f)) := by
  have ht : toInt 1024 = 1024 := by decide
  have hm : 1024 % 2 ^ 64 ≠ 0 := by decide
  simp only [normalizeFrame, squareFrame, Image.Bounds, hx, hy, ne_eq, not_true_eq_false,
    if_false, ht, Resize, hm, Decoded_Readable f hd]
  norm_num

set_option maxRecDepth 100000 in
/-- C8 (failing input): with `-max 0` and an animation of a single decoded
1 x 1 frame, the frame is wider than `MaxDim` and is passed to
`resize.Resize(0, 0, img, ...)`, which takes the zeros as "keep the size" and
returns the image it is given: the stored image is 1 x 1, and its side is not
at most `MaxDim`. -/
theorem maxDim_zero_frame_exceeds :
    (handleOne 0 onePixelGIF).map (fun a => a.frames.map (fun fr =>
      (fr.image.Bounds.Dx, fr.image.Bounds.Dy, decide (fr.image.Bounds.Dx ≤ (0 : Int))))) =
      some [(1, 1, false)] := by
  decide

/-- For every `MaxDim` of at least 1 the code does what the help text of
`-max` says: every stored image is square with side at most `MaxDim`. -/
theorem stored_square_within_MaxDim (MaxDim : Nat) (hpos : 1 ≤ MaxDim)
    (huint : MaxDim < 2 ^ 64) (g : GIF) (a : APNG) (h : handleOne MaxDim g = some a) :
    ∀ fr ∈ a.frames,
      fr.image.Bounds.Dx = fr.image.Bounds.Dy ∧ fr.image.Bounds.Dx ≤ (MaxDim : Int) := by
  intro fr hfr
  obtain ⟨frames, _, hall, _⟩ := handleOne_spec MaxDim g a h
  obtain ⟨img, _, j, hj⟩ := forall₂_mem_right hall fr hfr
  exact normalizeFrame_square MaxDim hpos huint img fr.image
    (assembleFrame_spec MaxDim g j img fr hj).1

/-- A single decoded frame of 2000 x 2000 with `MaxDim = 1024` yields one
descriptor, whose image is the frame resampled to `(0,0)-(1024,1024)`. -/
theorem bigSquare_resampled (f : Paletted) (d : Int) (disp : Byte) (lc : Int)
    (hd : f.Decoded) (hx : f.rect.Dx = 2000) (hy : f.rect.Dy = 2000) :
    ∃ fr, (handleOne 1024 ⟨[f], [d], [disp], lc⟩).map (fun b => b.frames) = some [fr] ∧
      fr.image = .resized 1024 1024 (Image.paletted f) ∧
      fr.image.Bounds = ⟨⟨0, 0⟩, ⟨1024, 1024⟩⟩ := by
  have hu := (unifyStep_passthrough [f]
    (le_trans (distinctColorCount_singleton_le f) hd.2.2.2.2.2.2)
    (fun f1 h1 f2 h2 => by
      rw [List.mem_singleton] at h1 h2
      rw [h1, h2])).2.2
  refine ⟨{ image := .resized 1024 1024 (Image.paletted f)
            xOffset := 0
            yOffset := 0
            delayNumerator := (d % 65536).toNat
            disposeOp := disposeOpOf disp
            blendOp := BLEND_OP_OVER }, ?_, rfl, rfl⟩
  simp only [handleOne, hu, List.map_cons, List.map_nil, assembleFrom, assembleFrame,
    normalizeFrame_bigSquare f hd hx hy, List.getElem?_cons_zero, Option.map_some']
  rfl

set_option maxRecDepth 10000 in
/-- C9 (failing input): a decoded frame one pixel wide and two high, both
pixels red, whose bounds start at `(1, 0)`.  `makeSquare` with side 2 draws
with the destination rectangle `img.Bounds()` and the source point `(0, 0)`:
the clipped rectangle is empty, nothing is drawn, and the canvas stays fully
transparent, while the frame's pixel at offset `(0, 0)` is red. -/
theorem makeSquare_shiftedFrame_blank :
    shiftedFrame.Decoded ∧ shiftedFrame.rect.Dx = 1 ∧ shiftedFrame.rect.Dy = 2 ∧
    shiftedFrame.At (shiftedFrame.rect.min.x + 0) (shiftedFrame.rect.min.y + 0) = some red ∧
    (makeSquare (.paletted shiftedFrame) 2 2 transparent).map
      (fun c => (c.rect, c.pix 0 0, c.pix 0 1, c.pix 1 0, c.pix 1 1)) =
    some (⟨⟨0, 0⟩, ⟨2, 2⟩⟩, transparent, transparent, transparent, transparent) := by
  decide

theorem assembleFrame_offsets (MaxDim : Nat) (g : GIF) (j : Nat) (img : Image) (fr : Frame)
    (h : assembleFrame MaxDim g j img = some fr) : OffsetsFollowBounds MaxDim img fr := by
  obtain ⟨hn, hx, hy⟩ := assembleFrame_spec MaxDim g j img fr h
  obtain ⟨sq, hs, hcur⟩ := normalizeFrame_spec MaxDim img fr.image hn
  obtain ⟨_, hsame, hpad⟩ := squareFrame_spec img sq hs
  refine ⟨hx, hy, ?_, ?_, ?_⟩
  · intro hne hnn
    have hmin := hpad hne hnn
    rcases hcur with ⟨hc, _⟩ | ⟨hc, h0, _⟩
    · rw [hx, hy, hc]
      simp only [StoredImage.Bounds, hmin, and_self]
    · rw [hx, hy, hc]
      simp only [StoredImage.Bounds, (Rect_square (toInt MaxDim)).2.1 h0, and_self]
  · intro w hh src hres
    rcases hcur with ⟨hc, _⟩ | ⟨hc, h0, _⟩
    · rw [hc] at hres
      cases hres
    · rw [hx, hy, hc]
      simp only [StoredImage.Bounds, (Rect_square (toInt MaxDim)).2.1 h0, and_self]
  · intro he hle
    have hsq := hsame he
    subst hsq
    rcases hcur with ⟨hc, _⟩ | ⟨_, _, hlt⟩
    · rw [hx, hy, hc]
      exact ⟨rfl, rfl, rfl⟩
    · omega

/-- C10 (counterexample): a square one-pixel frame whose bounds start at
`(3, 4)`, within `MaxDim = 1024`, is stored as it is and its descriptor has
`XOffset = 3` and `YOffset = 4`. -/
theorem offsetSquare_offsets_nonzero :
    (handleOne 1024 offsetSquareGIF).map (fun a => a.frames.map (fun fr =>
      (fr.xOffset, fr.yOffset))) = some [(3, 4)] := by
  decide

/-- C10 (amended): in every output frame descriptor `XOffset` and `YOffset`
are the origin of the bounds of the stored image: `(0, 0)` for every frame
that was padded to a square or resampled, and the source frame's bounds origin
for a frame that is already square and within the maximum dimension. -/
theorem offsets_follow_stored_bounds (MaxDim : Nat) (g : GIF) (a : APNG)
    (h : handleOne MaxDim g = some a) :
    ∃ frames, unifyStep g.image = some frames ∧
      List.Forall₂ (OffsetsFollowBounds MaxDim) frames a.frames := by
  obtain ⟨frames, hu, hall, _⟩ := handleOne_spec MaxDim g a h
  refine ⟨frames, hu, List.Forall₂.imp ?_ hall⟩
  rintro img fr ⟨j, hj⟩
  exact assembleFrame_offsets MaxDim g j img fr hj

/-- C10 (witness): the square frame at `(3, 4)` with `MaxDim = 1024`. -/
theorem offsets_follow_stored_bounds_witness :
    handleOne 1024 offsetSquareGIF = some offsetSquareAPNG ∧
    ∃ frames, unifyStep offsetSquareGIF.image = some frames ∧
      List.Forall₂ (OffsetsFollowBounds 1024) frames offsetSquareAPNG.frames :=
  ⟨rfl, offsets_follow_stored_bounds 1024 offsetSquareGIF offsetSquareAPNG rfl⟩

/-! ## `makeSquare` on an image at the origin -/

theorem Image.At_eq_colorAt (img : Image) (x y : Int) :
    img.At x y = (img.colorAt x y).map Color.RGBA := by
  cases img <;> rfl

theorem overChannel_zero (v a : Byte) : overChannel 0 (v.val * 257) (a.val * 257) = v := by
  apply Fin.ext
  have h := v.isLt
  have h1 : v.val * 257 % 2 ^ 32 = v.val * 257 := Nat.mod_eq_of_lt (by omega)
  have h2 : v.val * 257 / 256 = v.val := by omega
  simp only [overChannel, toByte, Fin.val_zero, zero_mul, Nat.zero_mod, Nat.zero_div,
    zero_add, h1, h2]
  omega

theorem drawPixel_over_transparent (c : Color) : drawPixel .over transparent c.RGBA = c := by
  simp [drawPixel, Color.RGBA, transparent, overChannel_zero]

theorem ZR_Intersect (r : Rectangle) : ZR.Intersect r = ZR := by
  simp only [Rectangle.Intersect, ZR]
  split_ifs with h1 h2 h3 h4 h5 <;> first | rfl | (exfalso; rw [Empty_iff] at *; simp only at *; omega)

/-- Function `makeSquare` on an image whose bounds start at `(0, 0)` and fit
in the square: the canvas has the bounds `(0,0)-(s,s)`, shows the image's own
colours on the image's bounds and is transparent elsewhere. -/
theorem makeSquare_at_origin (img : Image) (s : Int) (out : RGBAImage)
    (hmin : img.Bounds.min = ⟨0, 0⟩) (hx : img.Bounds.max.x ≤ s) (hy : img.Bounds.max.y ≤ s)
    (hs : 0 ≤ s) (h : makeSquare img s s transparent = some out) :
    out.rect = ⟨⟨0, 0⟩, ⟨s, s⟩⟩ ∧
    (∀ x y : Int, Point.In ⟨x, y⟩ img.Bounds = true →
      ∃ c, img.colorAt x y = some c ∧ out.pix x y = c) ∧
    (∀ x y : Int, Point.In ⟨x, y⟩ img.Bounds = false → out.pix x y = transparent) := by
  have hrect : Rect 0 0 s s = ⟨⟨0, 0⟩, ⟨s, s⟩⟩ := by
    simp only [Rect, show ¬ (0 > s) by omega, if_false]
  have hr := makeSquare_rect img s s transparent out h
  rw [hrect] at hr
  refine ⟨hr, ?_⟩
  unfold makeSquare NewRGBA at h
  rw [hrect] at h
  simp only [Rectangle.Dx, Rectangle.Dy, sub_zero, show ¬ (s < 0 ∨ s < 0) by omega,
    if_false] at h
  have hfill : ∀ x y : Int, (if 0 ≤ x ∧ x < s ∧ 0 ≤ y ∧ y < s ∧
      Point.In ⟨x, y⟩ ⟨⟨0, 0⟩, ⟨s, s⟩⟩ = true then transparent else transparent) =
      transparent := fun x y => ite_self _
  simp only [hfill] at h
  unfold Draw at h
  simp only at h
  have hb : img.Bounds = ⟨⟨0, 0⟩, img.Bounds.max⟩ := by
    rw [← hmin]
  have hclip2 : clip ⟨⟨0, 0⟩, ⟨s, s⟩⟩ img.Bounds img.Bounds ⟨0, 0⟩ =
      (if img.Bounds.Empty then ZR else img.Bounds, ⟨0, 0⟩) := by
    have h1 : img.Bounds.Intersect ⟨⟨0, 0⟩, ⟨s, s⟩⟩ =
        if img.Bounds.Empty then ZR else img.Bounds := by
      rw [hb]
      simp only [Rectangle.Intersect, Rectangle.Empty, lt_self_iff_false, if_false,
        show ¬ (img.Bounds.max.x > s) by omega, show ¬ (img.Bounds.max.y > s) by omega]
    cases he : img.Bounds.Empty with
    | true =>
      simp only [clip, h1, he, if_true, hmin, sub_self, Add_zero, ZR_Intersect]
      rfl
    | false =>
      simp only [clip, h1, he, Bool.false_eq_true, if_false, hmin, sub_self, Add_zero,
        Intersect_self, add_zero]
  rw [hclip2] at h
  cases he : img.Bounds.Empty with
  | true =>
    simp only [he, if_true, ZR_Empty, Option.some.injEq] at h
    subst h
    refine ⟨?_, fun _ _ _ => rfl⟩
    intro x y hin
    rw [In_iff] at hin
    rw [Empty_iff] at he
    omega
  | false =>
    simp only [he, Bool.false_eq_true, if_false, hmin, sub_zero, zero_add] at h
    split_ifs at h with hall
    simp only [Option.some.injEq] at h
    subst h
    constructor
    · intro x y hin
      have hpt := (List.all_eq_true.1 hall) ⟨x, y⟩ ((mem_rectPoints _ _).2 hin)
      simp only [Image.At_eq_colorAt, Option.isSome_map'] at hpt
      obtain ⟨c, hc⟩ := Option.isSome_iff_exists.1 hpt
      refine ⟨c, hc, ?_⟩
      simp only [hin, if_true, Image.At_eq_colorAt, hc, Option.map_some',
        drawPixel_over_transparent]
    · intro x y hin
      simp only [hin, Bool.false_eq_true, if_false]

/-! ## The Frame Assembler: delay, loop count, disposal and blend -/

theorem assembleFrom_getElem (MaxDim : Nat) (g : GIF) (frames : List Image) :
    ∀ (i : Nat) (fs : List Frame), assembleFrom MaxDim g i frames = some fs →
      ∀ (k : Nat) (fr : Frame), fs[k]? = some fr →
        ∃ img, frames[k]? = some img ∧ assembleFrame MaxDim g (i + k) img = some fr := by
  induction frames with
  | nil =>
    intro i fs h k fr hk
    simp only [assembleFrom, Option.some.injEq] at h
    subst h
    simp at hk
  | cons img rest ih =>
    intro i fs h k fr hk
    simp only [assembleFrom] at h
    cases hf : assembleFrame MaxDim g i img with
    | none => rw [hf] at h; cases h
    | some f =>
      rw [hf] at h
      cases hr : assembleFrom MaxDim g (i + 1) rest with
      | none => rw [hr] at h; cases h
      | some fs1 =>
        rw [hr] at h
        simp only [Option.some.injEq] at h
        subst h
        cases k with
        | zero =>
          simp only [List.getElem?_cons_zero, Option.some.injEq] at hk
          subst hk
          exact ⟨img, List.getElem?_cons_zero, hf⟩
        | succ k =>
          simp only [List.getElem?_cons_succ] at hk
          obtain ⟨img1, h1, h2⟩ := ih (i + 1) fs1 hr k fr hk
          refine ⟨img1, by simpa using h1, ?_⟩
          rw [show i + (k + 1) = i + 1 + k by omega]
          exact h2

theorem assembleFrame_fields (MaxDim : Nat) (g : GIF) (i : Nat) (img : Image) (fr : Frame)
    (h : assembleFrame MaxDim g i img = some fr) :
    ∃ d disp, g.delay[i]? = some d ∧ g.disposal[i]? = some disp ∧
      fr.delayNumerator = (d % 65536).toNat ∧ fr.disposeOp = disposeOpOf disp ∧
      fr.blendOp = BLEND_OP_OVER := by
  unfold assembleFrame at h
  cases hn : normalizeFrame MaxDim img with
  | none => rw [hn] at h; cases h
  | some cur =>
    rw [hn] at h
    simp only at h
    cases hd : g.delay[i]? with
    | none => rw [hd] at h; cases h
    | some d =>
      cases hp : g.disposal[i]? with
      | none => rw [hd, hp] at h; cases h
      | some disp =>
        rw [hd, hp] at h
        simp only [Option.some.injEq] at h
        subst h
        exact ⟨d, disp, rfl, rfl, rfl, rfl, rfl⟩

/-- The descriptor at position `i` of the output is built from `frames[i]`,
`g.Delay[i]` and `g.Disposal[i]`. -/
theorem handleOne_frame (MaxDim : Nat) (g : GIF) (a : APNG) (h : handleOne MaxDim g = some a)
    (i : Nat) (fr : Frame) (hfr : a.frames[i]? = some fr) :
    ∃ d disp, g.delay[i]? = some d ∧ g.disposal[i]? = some disp ∧
      fr.delayNumerator = (d % 65536).toNat ∧ fr.disposeOp = disposeOpOf disp ∧
      fr.blendOp = BLEND_OP_OVER := by
  unfold handleOne at h
  cases hu : unifyStep g.image with
  | none => rw [hu] at h; cases h
  | some frames =>
    rw [hu] at h
    simp only at h
    cases hf : assembleFrom MaxDim g 0 frames with
    | none => rw [hf] at h; cases h
    | some fs =>
      rw [hf] at h
      simp only [Option.some.injEq] at h
      subst h
      obtain ⟨img, _, hj⟩ := assembleFrom_getElem MaxDim g frames 0 fs hf i fr hfr
      rw [Nat.zero_add] at hj
      exact assembleFrame_fields MaxDim g i img fr hj

theorem handleOne_loopCount (MaxDim : Nat) (g : GIF) (a : APNG)
    (h : handleOne MaxDim g = some a) : a.loopCount = (g.loopCount % 2 ^ 64).toNat :=
  (handleOne_spec MaxDim g a h).choose_spec.2.2

/-! ## One descriptor for every source frame -/

theorem promoteAll_length : ∀ (imgs : List Paletted) (out : List Image),
    promoteAll imgs = some out → out.length = imgs.length := by
  intro imgs
  induction imgs with
  | nil =>
    intro out h
    simp only [promoteAll, Option.some.injEq] at h
    subst h
    rfl
  | cons frame rest ih =>
    intro out h
    simp only [promoteAll] at h
    cases hp : promote frame with
    | none => rw [hp] at h; cases h
    | some img =>
      rw [hp] at h
      cases hr : promoteAll rest with
      | none => rw [hr] at h; cases h
      | some out1 =>
        rw [hr] at h
        simp only [Option.some.injEq] at h
        subst h
        simp only [List.length_cons, ih out1 hr]

theorem unifyRest_length : ∀ (rest : List Paletted) (primary : List Color)
    (res : List Color × List Paletted),
    unifyRest primary rest = some res → res.2.length = rest.length := by
  intro rest
  induction rest with
  | nil =>
    intro primary res h
    simp only [unifyRest, Option.some.injEq] at h
    subst h
    rfl
  | cons frame rest ih =>
    intro primary res h
    simp only [unifyRest] at h
    cases hp : remapPix frame (buildMap primary frame.palette).2 with
    | none => rw [hp] at h; cases h
    | some p =>
      rw [hp] at h
      cases hr : unifyRest (buildMap primary frame.palette).1 rest with
      | none => rw [hr] at h; cases h
      | some r =>
        rw [hr] at h
        simp only [Option.some.injEq] at h
        subst h
        simp only [List.length_cons, ih _ r hr]

theorem unify_length (imgs out : List Paletted) (h : unify imgs = some out) :
    out.length = imgs.length := by
  cases imgs with
  | nil => simp only [unify] at h; cases h
  | cons primaryFrame rest =>
    simp only [unify] at h
    cases hr : unifyRest primaryFrame.palette rest with
    | none => rw [hr] at h; cases h
    | some r =>
      rw [hr] at h
      simp only [Option.some.injEq] at h
      subst h
      simp only [List.length_cons, unifyRest_length rest _ r hr]

/-- The unification step gives one element of `frames` for every source
frame, on each of its three branches. -/
theorem unifyStep_length (imgs : List Paletted) (frames : List Image)
    (h : unifyStep imgs = some frames) : frames.length = imgs.length := by
  unfold unifyStep at h
  cases hm : mustRepalettize imgs with
  | none => rw [hm] at h; cases h
  | some must =>
    rw [hm] at h
    simp only at h
    by_cases hb : exceedsBudget imgs = true
    · rw [if_pos hb] at h
      exact promoteAll_length imgs frames h
    · rw [if_neg hb] at h
      by_cases hmust : must = true
      · rw [if_pos hmust] at h
        cases hu : unify imgs with
        | none => rw [hu] at h; cases h
        | some out =>
          rw [hu] at h
          simp only [Option.map_some', Option.some.injEq] at h
          subst h
          rw [List.length_map]
          exact unify_length imgs out hu
      · rw [if_neg hmust] at h
        simp only [Option.some.injEq] at h
        subst h
        exact List.length_map _ _

/-- The output has one descriptor for every source frame. -/
theorem handleOne_length (MaxDim : Nat) (g : GIF) (a : APNG)
    (h : handleOne MaxDim g = some a) : a.frames.length = g.image.length := by
  obtain ⟨frames, hu, hall, _⟩ := handleOne_spec MaxDim g a h
  rw [← hall.length_eq]
  exact unifyStep_length g.image frames hu

/-- Every source frame index has a descriptor, built from `g.Delay[i]` and
`g.Disposal[i]`. -/
theorem handleOne_frame_at (MaxDim : Nat) (g : GIF) (a : APNG)
    (h : handleOne MaxDim g = some a) (i : Nat) (hi : i < g.image.length) :
    ∃ fr d disp, a.frames[i]? = some fr ∧ g.delay[i]? = some d ∧
      g.disposal[i]? = some disp ∧
      fr.delayNumerator = (d % 65536).toNat ∧ fr.disposeOp = disposeOpOf disp ∧
      fr.blendOp = BLEND_OP_OVER := by
  have hlen := handleOne_length MaxDim g a h
  have hi2 : i < a.frames.length := by rw [hlen]; exact hi
  have hfr : a.frames[i]? = some (a.frames[i]) := List.getElem?_eq_getElem hi2
  obtain ⟨d, disp, h1, h2, h3, h4, h5⟩ := handleOne_frame MaxDim g a h i _ hfr
  exact ⟨_, d, disp, hfr, h1, h2, h3, h4, h5⟩

/-- C11: the decoder reads the delay of a frame from the 16-bit field of its
Graphic Control Extension, so every `g.Delay[i]` lies in `0 .. 65535`.  For
every such decoded animation the output has one descriptor for every source
frame index `i`, and that descriptor's `DelayNumerator` is numerically equal
to `g.Delay[i]`. -/
theorem delay_numerator_equals_source_delay (MaxDim : Nat) (g : GIF) (a : APNG)
    (hrange : ∀ d ∈ g.delay, 0 ≤ d ∧ d < 65536)
    (h : handleOne MaxDim g = some a) :
    a.frames.length = g.image.length ∧
    ∀ i, i < g.image.length →
      ∃ fr d, a.frames[i]? = some fr ∧ g.delay[i]? = some d ∧
        (fr.delayNumerator : Int) = d := by
  refine ⟨handleOne_length MaxDim g a h, ?_⟩
  intro i hi
  obtain ⟨fr, d, _, hfr, hd, _, hn, _, _⟩ := handleOne_frame_at MaxDim g a h i hi
  refine ⟨fr, d, hfr, hd, ?_⟩
  obtain ⟨h0, h1⟩ := hrange d (List.getElem?_mem hd)
  rw [hn, Int.toNat_of_nonneg (Int.emod_nonneg d (by decide))]
  exact Int.emod_eq_of_lt h0 h1

/-- C11 (witness): the three-frame animation `threeDisposalsGIF`, of delays
10, 20 and 65535: the program returns `threeDisposalsAPNG`, whose three
descriptors carry these three delays. -/
theorem delay_numerator_equals_source_delay_witness :
    (∀ d ∈ threeDisposalsGIF.delay, 0 ≤ d ∧ d < 65536) ∧
    handleOne 1024 threeDisposalsGIF = some threeDisposalsAPNG ∧
    threeDisposalsAPNG.frames.map (fun fr => fr.delayNumerator) = [10, 20, 65535] ∧
    threeDisposalsAPNG.frames.length = threeDisposalsGIF.image.length ∧
    ∀ i, i < threeDisposalsGIF.image.length →
      ∃ fr d, threeDisposalsAPNG.frames[i]? = some fr ∧ threeDisposalsGIF.delay[i]? = some d ∧
        (fr.delayNumerator : Int) = d :=
  ⟨by decide, rfl, rfl,
    delay_numerator_equals_source_delay 1024 threeDisposalsGIF threeDisposalsAPNG
      (by decide) rfl⟩

/-- C12 (counterexample): the source loop count `-1` gives the output loop
count `2 ^ 64 - 1`: the conversion `uint(g.LoopCount)` wraps. -/
theorem loopCount_minus_one_wraps :
    (handleOne 1024 playOnceGIF).map (fun a => a.loopCount) = some 18446744073709551615 ∧
    playOnceGIF.loopCount = -1 := by
  decide

/-- C12 (amended): for every source animation whose loop count is not
negative, the output loop count is numerically equal to the source loop count
`g.LoopCount`, `0` (loop forever) included. -/
theorem loopCount_roundtrip_nonneg (MaxDim : Nat) (g : GIF) (a : APNG)
    (h : handleOne MaxDim g = some a) (h0 : 0 ≤ g.loopCount) (h1 : g.loopCount < 2 ^ 63) :
    (a.loopCount : Int) = g.loopCount := by
  have hmod : (a.loopCount : Int) = g.loopCount % 2 ^ 64 := by
    rw [handleOne_loopCount MaxDim g a h]
    exact Int.toNat_of_nonneg (Int.emod_nonneg _ (by decide))
  rw [hmod]
  exact Int.emod_eq_of_lt h0 (by omega)

/-- C12 (witness): the one-frame animation `offsetSquareGIF`, of loop
count 0. -/
theorem loopCount_roundtrip_nonneg_witness :
    handleOne 1024 offsetSquareGIF = some offsetSquareAPNG ∧
    0 ≤ offsetSquareGIF.loopCount ∧ offsetSquareGIF.loopCount < 2 ^ 63 ∧
    (offsetSquareAPNG.loopCount : Int) = offsetSquareGIF.loopCount :=
  ⟨rfl, by decide, by decide,
    loopCount_roundtrip_nonneg 1024 offsetSquareGIF offsetSquareAPNG rfl
      (by decide) (by decide)⟩

/-- C13: the output has one descriptor for every source frame index `i`; a
source disposal `g.Disposal[i]` of `DisposalNone`, `DisposalBackground` or
`DisposalPrevious` gives that descriptor the `DisposeOp` of the same name,
and every descriptor has `BlendOp = BLEND_OP_OVER`. -/
theorem disposal_and_blend (MaxDim : Nat) (g : GIF) (a : APNG)
    (h : handleOne MaxDim g = some a) :
    a.frames.length = g.image.length ∧
    ∀ i, i < g.image.length →
      ∃ fr disp, a.frames[i]? = some fr ∧ g.disposal[i]? = some disp ∧
        (disp = DisposalNone → fr.disposeOp = DISPOSE_OP_NONE) ∧
        (disp = DisposalBackground → fr.disposeOp = DISPOSE_OP_BACKGROUND) ∧
        (disp = DisposalPrevious → fr.disposeOp = DISPOSE_OP_PREVIOUS) ∧
        fr.blendOp = BLEND_OP_OVER := by
  refine ⟨handleOne_length MaxDim g a h, ?_⟩
  intro i hi
  obtain ⟨fr, _, disp, hfr, _, hp, _, hd, hb⟩ := handleOne_frame_at MaxDim g a h i hi
  refine ⟨fr, disp, hfr, hp, ?_, ?_, ?_, hb⟩
  · rintro rfl; rw [hd]; rfl
  · rintro rfl; rw [hd]; rfl
  · rintro rfl; rw [hd]; rfl

/-- C13 (witness): the three-frame animation `threeDisposalsGIF`, of
disposals `DisposalNone`, `DisposalBackground` and `DisposalPrevious`: the
program returns `threeDisposalsAPNG`, whose three descriptors carry
`DISPOSE_OP_NONE`, `DISPOSE_OP_BACKGROUND` and `DISPOSE_OP_PREVIOUS` in this
order and `BLEND_OP_OVER` each. -/
theorem disposal_and_blend_witness :
    handleOne 1024 threeDisposalsGIF = some threeDisposalsAPNG ∧
    threeDisposalsGIF.disposal = [DisposalNone, DisposalBackground, DisposalPrevious] ∧
    threeDisposalsAPNG.frames.map (fun fr => fr.disposeOp) =
      [DISPOSE_OP_NONE, DISPOSE_OP_BACKGROUND, DISPOSE_OP_PREVIOUS] ∧
    threeDisposalsAPNG.frames.map (fun fr => fr.blendOp) =
      [BLEND_OP_OVER, BLEND_OP_OVER, BLEND_OP_OVER] ∧
    threeDisposalsAPNG.frames.length = threeDisposalsGIF.image.length ∧
    ∀ i, i < threeDisposalsGIF.image.length →
      ∃ fr disp, threeDisposalsAPNG.frames[i]? = some fr ∧
        threeDisposalsGIF.disposal[i]? = some disp ∧
        (disp = DisposalNone → fr.disposeOp = DISPOSE_OP_NONE) ∧
        (disp = DisposalBackground → fr.disposeOp = DISPOSE_OP_BACKGROUND) ∧
        (disp = DisposalPrevious → fr.disposeOp = DISPOSE_OP_PREVIOUS) ∧
        fr.blendOp = BLEND_OP_OVER :=
  ⟨rfl, rfl, rfl, rfl, disposal_and_blend 1024 threeDisposalsGIF threeDisposalsAPNG rfl⟩

/-! ## `insertColorEntry` and the nearest-entry fallback -/

theorem RGBA_injective (c e : Color) (h : c.RGBA = e.RGBA) : c = e := by
  obtain ⟨r1, g1, b1, a1⟩ := c
  obtain ⟨r2, g2, b2, a2⟩ := e
  simp only [Color.RGBA, Prod.mk.injEq] at h
  obtain ⟨h1, h2, h3, h4⟩ := h
  have e1 : r1 = r2 := Fin.ext (by omega)
  have e2 : g1 = g2 := Fin.ext (by omega)
  have e3 : b1 = b2 := Fin.ext (by omega)
  have e4 : a1 = a2 := Fin.ext (by omega)
  rw [e1, e2, e3, e4]

theorem sameRGBA_iff (c e : Color) : sameRGBA c e = true ↔ c = e := by
  constructor
  · intro h
    simp only [sameRGBA, Bool.and_eq_true, decide_eq_true_eq] at h
    obtain ⟨⟨⟨h1, h2⟩, h3⟩, h4⟩ := h
    exact RGBA_injective c e (Prod.ext h1 (Prod.ext h2 (Prod.ext h3 h4)))
  · rintro rfl
    simp [sameRGBA]

/-- The three outcomes of `insertColorEntry`: the colour is found at its
first position, or it is absent and appended, or it is absent and the palette
is full. -/
theorem insertColorEntry_cases (palette : List Color) (c : Color) :
    (∃ i, insertColorEntry palette c = (palette, some i) ∧ palette[i]? = some c) ∨
    (c ∉ palette ∧ palette.length < 256 ∧
      insertColorEntry palette c = (palette ++ [c], some palette.length)) ∨
    (c ∉ palette ∧ 256 ≤ palette.length ∧ insertColorEntry palette c = (palette, none)) := by
  unfold insertColorEntry
  cases hf : palette.findIdx? (fun entry => sameRGBA c entry) with
  | some i =>
    left
    obtain ⟨hi, hp, _⟩ := List.findIdx?_eq_some_iff_getElem.1 hf
    refine ⟨i, rfl, ?_⟩
    rw [List.getElem?_eq_getElem hi, ((sameRGBA_iff c _).1 hp)]
  | none =>
    right
    have hnot : c ∉ palette := by
      intro hc
      have := List.findIdx?_eq_none_iff.1 hf c hc
      rw [(sameRGBA_iff c c).2 rfl] at this
      cases this
    by_cases hfull : palette.length ≥ 256
    · right
      rw [if_pos hfull]
      exact ⟨hnot, hfull, rfl⟩
    · left
      rw [if_neg hfull]
      refine ⟨hnot, by omega, ?_⟩
      simp

theorem sqDiff_lt (x y : Nat) : sqDiff x y < 2 ^ 30 := by
  unfold sqDiff
  simp only
  have h := Nat.mod_lt ((x + 2 ^ 32 - y % 2 ^ 32) % 2 ^ 32 * ((x + 2 ^ 32 - y % 2 ^ 32) % 2 ^ 32))
    (show 2 ^ 32 > 0 by decide)
  omega

theorem indexSum_lt (c v : Color) : indexSum c v < 2 ^ 32 - 1 := by
  unfold indexSum
  have h1 := sqDiff_lt c.RGBA.1 v.RGBA.1
  have h2 := sqDiff_lt c.RGBA.2.1 v.RGBA.2.1
  have h3 := sqDiff_lt c.RGBA.2.2.1 v.RGBA.2.2.1
  have h4 := sqDiff_lt c.RGBA.2.2.2 v.RGBA.2.2.2
  omega

/-- The loop of `color.Palette.Index`: it keeps `ret` when no entry beats
`bestSum`, and otherwise returns the position of an entry of least `sum`. -/
theorem indexLoop_spec (c : Color) (vs : List Color) :
    ∀ (i ret best : Nat),
      (indexLoop c vs i ret best = ret ∧ ∀ v ∈ vs, best ≤ indexSum c v) ∨
      (∃ (k : Nat) (hk : k < vs.length), indexLoop c vs i ret best = i + k ∧
        indexSum c vs[k] < best ∧ ∀ v ∈ vs, indexSum c vs[k] ≤ indexSum c v) := by
  induction vs with
  | nil =>
    intro i ret best
    left
    exact ⟨rfl, fun v hv => by cases hv⟩
  | cons v vs ih =>
    intro i ret best
    have hmod : (sqDiff c.RGBA.1 v.RGBA.1 + sqDiff c.RGBA.2.1 v.RGBA.2.1 +
        sqDiff c.RGBA.2.2.1 v.RGBA.2.2.1 + sqDiff c.RGBA.2.2.2 v.RGBA.2.2.2) % 2 ^ 32 =
        indexSum c v := by
      have := indexSum_lt c v
      unfold indexSum at this ⊢
      exact Nat.mod_eq_of_lt (by omega)
    simp only [indexLoop, hmod]
    by_cases hlt : indexSum c v < best
    · rw [if_pos hlt]
      by_cases hz : indexSum c v = 0
      · rw [if_pos hz]
        right
        refine ⟨0, by simp, rfl, by simpa using hlt, ?_⟩
        intro v1 _
        simp only [List.getElem_cons_zero, hz]
        exact Nat.zero_le _
      · rw [if_neg hz]
        rcases ih (i + 1) i (indexSum c v) with ⟨h1, h2⟩ | ⟨k, hk, h1, h2, h3⟩
        · right
          refine ⟨0, by simp, by simpa using h1, by simpa using hlt, ?_⟩
          intro v1 hv1
          simp only [List.getElem_cons_zero]
          rcases List.mem_cons.1 hv1 with rfl | hv1
          · exact le_refl _
          · exact h2 v1 hv1
        · right
          refine ⟨k + 1, by simpa using hk, by rw [h1]; omega, ?_, ?_⟩
          · simp only [List.getElem_cons_succ]; omega
          · intro v1 hv1
            simp only [List.getElem_cons_succ]
            rcases List.mem_cons.1 hv1 with rfl | hv1
            · omega
            · exact h3 v1 hv1
    · rw [if_neg hlt]
      rcases ih (i + 1) ret best with ⟨h1, h2⟩ | ⟨k, hk, h1, h2, h3⟩
      · left
        refine ⟨h1, ?_⟩
        intro v1 hv1
        rcases List.mem_cons.1 hv1 with rfl | hv1
        · omega
        · exact h2 v1 hv1
      · right
        refine ⟨k + 1, by simpa using hk, by rw [h1]; omega, ?_, ?_⟩
        · simp only [List.getElem_cons_succ]; exact h2
        · intro v1 hv1
          simp only [List.getElem_cons_succ]
          rcases List.mem_cons.1 hv1 with rfl | hv1
          · omega
          · exact h3 v1 hv1

/-- On a palette that is not empty `getClosestColorEntry` returns the
position of an entry of least `sum`. -/
theorem getClosestColorEntry_spec (palette : List Color) (c : Color) (hne : palette ≠ []) :
    ∃ (hk : getClosestColorEntry palette c < palette.length),
      ∀ v ∈ palette, indexSum c palette[getClosestColorEntry palette c] ≤ indexSum c v := by
  unfold getClosestColorEntry
  rcases indexLoop_spec c palette 0 0 (2 ^ 32 - 1) with ⟨_, h2⟩ | ⟨k, hk, h1, _, h3⟩
  · obtain ⟨v, hv⟩ := List.exists_mem_of_ne_nil palette hne
    have := h2 v hv
    have := indexSum_lt c v
    omega
  · rw [Nat.zero_add] at h1
    refine ⟨by rw [h1]; exact hk, ?_⟩
    intro v hv
    simp only [h1]
    exact h3 v hv

theorem sqDiff_widen (x y k : Nat) (hx : x < 256) (hy : y < 256)
    (hk : k + y = x ∨ k + x = y) : sqDiff (x * 257) (y * 257) = 66049 * (k * k) / 4 := by
  have hk255 : k ≤ 255 := by omega
  have hkk : k * k ≤ 65025 := Nat.mul_le_mul hk255 hk255
  have hym : y * 257 % 2 ^ 32 = y * 257 := Nat.mod_eq_of_lt (by omega)
  have hsq : 257 * k * (257 * k) = 66049 * (k * k) := by ring
  unfold sqDiff
  simp only [hym]
  rcases hk with hk | hk
  · have hd : (x * 257 + 2 ^ 32 - y * 257) % 2 ^ 32 = 257 * k := by
      have : x * 257 + 2 ^ 32 - y * 257 = 257 * k + 2 ^ 32 := by omega
      rw [this, Nat.add_mod_right]
      exact Nat.mod_eq_of_lt (by omega)
    rw [hd, hsq, Nat.mod_eq_of_lt (by omega)]
  · by_cases hk0 : k = 0
    · subst hk0
      have : x = y := by omega
      subst this
      have hd : (x * 257 + 2 ^ 32 - x * 257) % 2 ^ 32 = 0 := by
        have : x * 257 + 2 ^ 32 - x * 257 = 2 ^ 32 := by omega
        rw [this]
        rfl
      rw [hd]
      rfl
    · have hd : (x * 257 + 2 ^ 32 - y * 257) % 2 ^ 32 = 2 ^ 32 - 257 * k := by
        have : x * 257 + 2 ^ 32 - y * 257 = 2 ^ 32 - 257 * k := by omega
        rw [this]
        exact Nat.mod_eq_of_lt (by omega)
      rw [hd]
      obtain ⟨b, hb⟩ : ∃ b, 2 ^ 32 - 257 * k = 257 * k + b := ⟨2 ^ 32 - 257 * k - 257 * k, by omega⟩
      have hsum : 257 * k + (257 * k + b) = 2 ^ 32 := by omega
      have hbb : (257 * k + b) * (257 * k + b) = 257 * k * (257 * k) + b * 2 ^ 32 := by
        have : (257 * k + b) * (257 * k + b) =
            257 * k * (257 * k) + b * (257 * k + (257 * k + b)) := by ring
        rw [this, hsum]
      rw [hb, hbb, Nat.add_mul_mod_self_right, hsq, Nat.mod_eq_of_lt (by omega)]

/-- One channel: the difference `k` of two bytes, its square as an integer,
and the value `sqDiff` gives on the widened bytes. -/
theorem channel_sqDiff (x y : Byte) :
    ∃ q : Nat, ((x.val : Int) - y.val) ^ 2 = (q : Int) ∧
      sqDiff (x.val * 257) (y.val * 257) = 66049 * q / 4 := by
  by_cases h : y.val ≤ x.val
  · refine ⟨(x.val - y.val) * (x.val - y.val), ?_, ?_⟩
    · have : ((x.val : Int) - y.val) = ((x.val - y.val : Nat) : Int) := by omega
      rw [this]
      push_cast
      ring
    · exact sqDiff_widen x.val y.val (x.val - y.val) x.isLt y.isLt (Or.inl (by omega))
  · refine ⟨(y.val - x.val) * (y.val - x.val), ?_, ?_⟩
    · have : ((x.val : Int) - y.val) = -((y.val - x.val : Nat) : Int) := by omega
      rw [this]
      push_cast
      ring
    · exact sqDiff_widen x.val y.val (y.val - x.val) x.isLt y.isLt (Or.inr (by omega))

/-- An entry of least `sum` is an entry of least sum of squared channel
differences. -/
theorem sqDist_le_of_indexSum_le (c e1 e2 : Color) (h : indexSum c e1 ≤ indexSum c e2) :
    sqDist c e1 ≤ sqDist c e2 := by
  obtain ⟨q1, hq1, hs1⟩ := channel_sqDiff c.r e1.r
  obtain ⟨q2, hq2, hs2⟩ := channel_sqDiff c.g e1.g
  obtain ⟨q3, hq3, hs3⟩ := channel_sqDiff c.b e1.b
  obtain ⟨q4, hq4, hs4⟩ := channel_sqDiff c.a e1.a
  obtain ⟨p1, hp1, ht1⟩ := channel_sqDiff c.r e2.r
  obtain ⟨p2, hp2, ht2⟩ := channel_sqDiff c.g e2.g
  obtain ⟨p3, hp3, ht3⟩ := channel_sqDiff c.b e2.b
  obtain ⟨p4, hp4, ht4⟩ := channel_sqDiff c.a e2.a
  simp only [indexSum, Color.RGBA, hs1, hs2, hs3, hs4, ht1, ht2, ht3, ht4] at h
  simp only [sqDist, hq1, hq2, hq3, hq4, hp1, hp2, hp3, hp4]
  omega

/-- The fallback of lines 176-179 on a full palette without the colour. -/
theorem fallback_spec (palette : List Color) (c : Color) (hlen : palette.length = 256)
    (hne : ∀ e ∈ palette, e.RGBA ≠ c.RGBA) :
    insertColorEntry palette c = (palette, none) ∧
    buildMap palette [c] = (palette, [getClosestColorEntry palette c]) ∧
    getClosestColorEntry palette c < 256 ∧
    ∃ ei, palette[getClosestColorEntry palette c]? = some ei ∧
      ∀ e ∈ palette, sqDist c ei ≤ sqDist c e := by
  have hins : insertColorEntry palette c = (palette, none) := by
    rcases insertColorEntry_cases palette c with ⟨i, _, hi⟩ | ⟨_, hl, _⟩ | ⟨_, _, h⟩
    · exact absurd rfl (hne c (List.getElem?_mem hi))
    · omega
    · exact h
  have hnil : palette ≠ [] := by
    intro h
    rw [h] at hlen
    cases hlen
  obtain ⟨hk, hmin⟩ := getClosestColorEntry_spec palette c hnil
  refine ⟨hins, ?_, by omega, palette[getClosestColorEntry palette c], ?_, ?_⟩
  · simp only [buildMap, hins]
  · exact List.getElem?_eq_getElem hk
  · intro e he
    exact sqDist_le_of_indexSum_le c _ e (hmin e he)

/-- C15: for a primary palette of exactly 256 entries and a colour `c` whose
RGBA 4-tuple differs from that of every entry, `insertColorEntry` fails and
leaves the palette as it is, the mapping step of lines 173-179 records the
index of `getClosestColorEntry` without any error, and that index is below 256
and names an entry whose sum of squared per-channel differences to `c` is at
most that of every entry. -/
theorem scenario_D_nearest_entry (palette : List Color) (c : Color)
    (hlen : palette.length = 256) (hne : ∀ e ∈ palette, e.RGBA ≠ c.RGBA) :
    insertColorEntry palette c = (palette, none) ∧
    buildMap palette [c] = (palette, [getClosestColorEntry palette c]) ∧
    getClosestColorEntry palette c < 256 ∧
    ∃ ei, palette[getClosestColorEntry palette c]? = some ei ∧
      ∀ e ∈ palette, sqDist c ei ≤ sqDist c e :=
  fallback_spec palette c hlen hne

set_option maxRecDepth 100000 in
/-- C15 (witness): the 256 colours `(i, 0, 0, 255)` and the colour
`(0, 1, 0, 255)`. -/
theorem scenario_D_nearest_entry_witness :
    fullPalette.length = 256 ∧
    (∀ e ∈ fullPalette, e.RGBA ≠ Color.RGBA ⟨0, 1, 0, 255⟩) ∧
    (insertColorEntry fullPalette ⟨0, 1, 0, 255⟩ = (fullPalette, none) ∧
    buildMap fullPalette [⟨0, 1, 0, 255⟩] =
      (fullPalette, [getClosestColorEntry fullPalette ⟨0, 1, 0, 255⟩]) ∧
    getClosestColorEntry fullPalette ⟨0, 1, 0, 255⟩ < 256 ∧
    ∃ ei, fullPalette[getClosestColorEntry fullPalette ⟨0, 1, 0, 255⟩]? = some ei ∧
      ∀ e ∈ fullPalette, sqDist ⟨0, 1, 0, 255⟩ ei ≤ sqDist ⟨0, 1, 0, 255⟩ e) :=
  ⟨by decide, by decide, scenario_D_nearest_entry fullPalette ⟨0, 1, 0, 255⟩
    (by decide) (by decide)⟩

/-! ## The pixel rewrite of lines 182-188 -/

theorem sliceAt_eq_some {α : Type} (s : List α) (i : Int) (v : α) (h : sliceAt s i = some v) :
    0 ≤ i ∧ i.toNat < s.length ∧ s[i.toNat]? = some v := by
  unfold sliceAt at h
  by_cases hneg : i < 0
  · rw [if_pos hneg] at h; cases h
  · rw [if_neg hneg] at h
    exact ⟨by omega, (List.getElem?_eq_some_iff.1 h).1, h⟩

theorem sliceAt_of_lt {α : Type} (s : List α) (i : Int) (h0 : 0 ≤ i)
    (h1 : i.toNat < s.length) : sliceAt s i = some s[i.toNat] := by
  unfold sliceAt
  rw [if_neg (by omega), List.getElem?_eq_getElem h1]

theorem mem_loopPoints (r : Rectangle) (pt : Point) :
    pt ∈ loopPoints r ↔ Point.In pt r = true := by
  obtain ⟨x, y⟩ := pt
  rw [In_iff]
  unfold loopPoints
  rw [List.mem_flatten]
  constructor
  · rintro ⟨l, hl, hpt⟩
    rw [List.mem_map] at hl
    obtain ⟨dx, hdx, rfl⟩ := hl
    rw [List.mem_map] at hpt
    obtain ⟨dy, hdy, hpt⟩ := hpt
    rw [List.mem_range] at hdx hdy
    have h1 := Int.lt_toNat.1 hdx
    have h2 := Int.lt_toNat.1 hdy
    simp only [Point.mk.injEq, Rectangle.Dx, Rectangle.Dy, Int.ofNat_eq_coe] at hpt h1 h2
    omega
  · rintro ⟨h1, h2, h3, h4⟩
    have ey : (((y - r.min.y).toNat : Nat) : Int) = y - r.min.y :=
      Int.toNat_of_nonneg (by omega)
    have ex : (((x - r.min.x).toNat : Nat) : Int) = x - r.min.x :=
      Int.toNat_of_nonneg (by omega)
    refine ⟨_, List.mem_map.2 ⟨(x - r.min.x).toNat, List.mem_range.2 (Int.lt_toNat.2 ?_), rfl⟩,
      List.mem_map.2 ⟨(y - r.min.y).toNat, List.mem_range.2 (Int.lt_toNat.2 ?_), ?_⟩⟩
    · rw [ex]; simp only [Rectangle.Dx]; omega
    · rw [ey]; simp only [Rectangle.Dy]; omega
    · simp only [Int.ofNat_eq_coe, ex, ey, Point.mk.injEq]
      omega

theorem remapAt_spec (frame : Paletted) (m : List Nat) (p p1 : List Byte) (pt : Point)
    (h : remapAt frame m p pt = some p1) :
    ∃ v, sliceAt frame.pix (frame.PixOffset pt.x pt.y) = some v ∧
      p1 = p.set (frame.PixOffset pt.x pt.y).toNat (toByte (mapLookup m v.val)) := by
  unfold remapAt at h
  cases hs : sliceAt frame.pix (frame.PixOffset pt.x pt.y) with
  | none => rw [hs] at h; cases h
  | some v =>
    rw [hs] at h
    exact ⟨v, rfl, (Option.some.inj h).symm⟩

theorem remapLoop_length (frame : Paletted) (m : List Nat) (pts : List Point) :
    ∀ p q, remapLoop frame m p pts = some q → q.length = p.length := by
  induction pts with
  | nil =>
    intro p q h
    simp only [remapLoop, Option.some.injEq] at h
    rw [h]
  | cons pt pts ih =>
    intro p q h
    simp only [remapLoop] at h
    cases ha : remapAt frame m p pt with
    | none => rw [ha] at h; cases h
    | some p1 =>
      rw [ha] at h
      obtain ⟨v, _, rfl⟩ := remapAt_spec frame m p p1 pt ha
      rw [ih _ q h, List.length_set]

/-- A property of the new buffer that every written value has and the
initial buffer has, holds after the loops. -/
theorem remapLoop_inv (frame : Paletted) (m : List Nat) (P : Nat → Byte → Prop)
    (hP : ∀ i v, frame.pix[i]? = some v → P i (toByte (mapLookup m v.val)))
    (pts : List Point) :
    ∀ p q, remapLoop frame m p pts = some q → (∀ i b, p[i]? = some b → P i b) →
      ∀ i b, q[i]? = some b → P i b := by
  induction pts with
  | nil =>
    intro p q h hp
    simp only [remapLoop, Option.some.injEq] at h
    rw [← h]
    exact hp
  | cons pt pts ih =>
    intro p q h hp
    simp only [remapLoop] at h
    cases ha : remapAt frame m p pt with
    | none => rw [ha] at h; cases h
    | some p1 =>
      rw [ha] at h
      obtain ⟨v, hv, rfl⟩ := remapAt_spec frame m p p1 pt ha
      refine ih _ q h ?_
      intro i b hb
      rw [List.getElem?_set] at hb
      by_cases hi : (frame.PixOffset pt.x pt.y).toNat = i
      · rw [if_pos hi] at hb
        split_ifs at hb
        cases hb
        rw [← hi]
        exact hP _ v (sliceAt_eq_some _ _ _ hv).2.2
      · rw [if_neg hi] at hb
        exact hp i b hb

/-- After the loops the buffer holds, at the offset of every point visited,
the mapped index of the old value at that offset. -/
theorem remapLoop_visited (frame : Paletted) (m : List Nat) (pts : List Point) :
    ∀ p q, p.length = frame.pix.length → remapLoop frame m p pts = some q →
      ∀ pt ∈ pts, ∃ v, sliceAt frame.pix (frame.PixOffset pt.x pt.y) = some v ∧
        q[(frame.PixOffset pt.x pt.y).toNat]? = some (toByte (mapLookup m v.val)) := by
  induction pts with
  | nil => intro p q _ _ pt hpt; cases hpt
  | cons pt0 pts ih =>
    intro p q hlen h pt hpt
    simp only [remapLoop] at h
    cases ha : remapAt frame m p pt0 with
    | none => rw [ha] at h; cases h
    | some p1 =>
      rw [ha] at h
      obtain ⟨v, hv, rfl⟩ := remapAt_spec frame m p p1 pt0 ha
      rcases List.mem_cons.1 hpt with rfl | hpt
      · refine ⟨v, hv, ?_⟩
        obtain ⟨_, hlt, hget⟩ := sliceAt_eq_some _ _ _ hv
        have hq := remapLoop_length frame m pts _ q h
        rw [List.length_set] at hq
        have hlt2 : (frame.PixOffset pt.x pt.y).toNat < q.length := by omega
        have := remapLoop_inv frame m
          (fun i b => i = (frame.PixOffset pt.x pt.y).toNat → b = toByte (mapLookup m v.val))
          (by
            intro i v1 hv1 hi
            subst hi
            rw [hget] at hv1
            cases hv1
            rfl)
          pts _ q h
          (by
            intro i b hb hi
            subst hi
            rw [List.getElem?_set, if_pos rfl, if_pos (by omega)] at hb
            exact (Option.some.inj hb).symm)
          _ q[(frame.PixOffset pt.x pt.y).toNat] (List.getElem?_eq_getElem hlt2) rfl
        rw [List.getElem?_eq_getElem hlt2, this]
      · exact ih _ q (by rw [List.length_set]; exact hlen) h pt hpt

theorem remapLoop_isSome (frame : Paletted) (m : List Nat) (pts : List Point)
    (hpts : ∀ pt ∈ pts, 0 ≤ frame.PixOffset pt.x pt.y ∧
      (frame.PixOffset pt.x pt.y).toNat < frame.pix.length) :
    ∀ p, ∃ q, remapLoop frame m p pts = some q := by
  induction pts with
  | nil => intro p; exact ⟨p, rfl⟩
  | cons pt pts ih =>
    intro p
    obtain ⟨h0, h1⟩ := hpts pt (List.mem_cons_self _ _)
    simp only [remapLoop, remapAt, sliceAt_of_lt frame.pix _ h0 h1]
    exact ih (fun pt1 h => hpts pt1 (List.mem_cons_of_mem _ h)) _

/-! ## The index map of lines 171-180 -/

theorem getElem?_append_of_some {α : Type} (l t : List α) (j : Nat) (c : α)
    (h : l[j]? = some c) : (l ++ t)[j]? = some c := by
  rw [List.getElem?_append_left (List.getElem?_eq_some_iff.1 h).1]
  exact h

/-- The primary palette only grows at its end, the map has one value per
entry, and every value is a position of the grown palette. -/
theorem buildMap_spec (cs : List Color) :
    ∀ primary : List Color,
      (∃ t, (buildMap primary cs).1 = primary ++ t) ∧
      (buildMap primary cs).2.length = cs.length ∧
      (primary ≠ [] → ∀ j ∈ (buildMap primary cs).2, j < (buildMap primary cs).1.length) := by
  induction cs with
  | nil =>
    intro primary
    exact ⟨⟨[], by simp [buildMap]⟩, rfl, fun _ j hj => by cases hj⟩
  | cons c cs ih =>
    intro primary
    rcases insertColorEntry_cases primary c with ⟨i, hins, hi⟩ | ⟨_, _, hins⟩ | ⟨_, _, hins⟩
    · obtain ⟨⟨t, ht⟩, hl, hv⟩ := ih primary
      simp only [buildMap, hins]
      refine ⟨⟨t, ht⟩, by simp [hl], ?_⟩
      intro hne j hj
      rcases List.mem_cons.1 hj with rfl | hj
      · have := (List.getElem?_eq_some_iff.1 hi).1
        rw [ht, List.length_append]
        omega
      · exact hv hne j hj
    · obtain ⟨⟨t, ht⟩, hl, hv⟩ := ih (primary ++ [c])
      simp only [buildMap, hins]
      refine ⟨⟨[c] ++ t, by rw [ht, List.append_assoc]⟩, by simp [hl], ?_⟩
      intro _ j hj
      rcases List.mem_cons.1 hj with rfl | hj
      · rw [ht]
        simp only [List.length_append, List.length_singleton]
        omega
      · exact hv (by simp) j hj
    · obtain ⟨⟨t, ht⟩, hl, hv⟩ := ih primary
      simp only [buildMap, hins]
      refine ⟨⟨t, ht⟩, by simp [hl], ?_⟩
      intro hne j hj
      rcases List.mem_cons.1 hj with rfl | hj
      · obtain ⟨hk, _⟩ := getClosestColorEntry_spec primary c hne
        rw [ht, List.length_append]
        omega
      · exact hv hne j hj

/-- When the fallback is not taken, the map sends every position of the
frame's palette to a position of the grown primary palette that holds the
same colour. -/
theorem buildMap_exact (cs : List Color) :
    ∀ primary : List Color, buildMapFallback primary cs = false →
      ∀ (i : Nat) (c : Color), cs[i]? = some c →
        ∃ j, (buildMap primary cs).2[i]? = some j ∧ (buildMap primary cs).1[j]? = some c := by
  induction cs with
  | nil => intro primary _ i c hi; simp at hi
  | cons c0 cs ih =>
    intro primary hfb i c hi
    rcases insertColorEntry_cases primary c0 with ⟨i0, hins, hi0⟩ | ⟨_, _, hins⟩ | ⟨_, _, hins⟩
    · simp only [buildMapFallback, hins] at hfb
      simp only [buildMap, hins]
      cases i with
      | zero =>
        simp only [List.getElem?_cons_zero, Option.some.injEq] at hi
        subst hi
        obtain ⟨t, ht⟩ := (buildMap_spec cs primary).1
        exact ⟨i0, by simp, by rw [ht]; exact getElem?_append_of_some _ _ _ _ hi0⟩
      | succ i =>
        simp only [List.getElem?_cons_succ] at hi ⊢
        exact ih primary hfb i c hi
    · simp only [buildMapFallback, hins] at hfb
      simp only [buildMap, hins]
      cases i with
      | zero =>
        simp only [List.getElem?_cons_zero, Option.some.injEq] at hi
        subst hi
        obtain ⟨t, ht⟩ := (buildMap_spec cs (primary ++ [c0])).1
        refine ⟨primary.length, by simp, ?_⟩
        rw [ht]
        exact getElem?_append_of_some _ _ _ _ (by simp)
      | succ i =>
        simp only [List.getElem?_cons_succ] at hi ⊢
        exact ih (primary ++ [c0]) hfb i c hi
    · simp [buildMapFallback, hins] at hfb

/-- With a duplicate-free primary palette and no more than 256 colours to
pick from, the fallback is not taken and the palette stays duplicate-free. -/
theorem buildMap_nodup (U : List Color) (hU : Bounded U) (cs : List Color) :
    ∀ primary : List Color, primary.Nodup → (∀ x ∈ primary, x ∈ U) → (∀ x ∈ cs, x ∈ U) →
      buildMapFallback primary cs = false ∧ (buildMap primary cs).1.Nodup ∧
        (∀ x ∈ (buildMap primary cs).1, x ∈ U) := by
  induction cs with
  | nil => intro primary hn hp _; exact ⟨rfl, hn, hp⟩
  | cons c cs ih =>
    intro primary hn hp hcs
    have hc : c ∈ U := hcs c (List.mem_cons_self _ _)
    have hcs1 : ∀ x ∈ cs, x ∈ U := fun x hx => hcs x (List.mem_cons_of_mem _ hx)
    have hn1 : c ∉ primary → (primary ++ [c]).Nodup := by
      intro hnot
      rw [List.nodup_append]
      refine ⟨hn, List.nodup_singleton c, ?_⟩
      intro a ha hb
      rw [List.mem_singleton] at hb
      exact hnot (hb ▸ ha)
    have hp1 : ∀ x ∈ primary ++ [c], x ∈ U := by
      intro x hx
      rcases List.mem_append.1 hx with h | h
      · exact hp x h
      · rw [List.mem_singleton] at h; rw [h]; exact hc
    rcases insertColorEntry_cases primary c with ⟨i, hins, _⟩ | ⟨hnot, _, hins⟩ | ⟨hnot, hfull, _⟩
    · simp only [buildMapFallback, buildMap, hins]
      exact ih primary hn hp hcs1
    · simp only [buildMapFallback, buildMap, hins]
      exact ih (primary ++ [c]) (hn1 hnot) hp1 hcs1
    · have := hU (primary ++ [c]) (hn1 hnot) hp1
      simp only [List.length_append, List.length_singleton] at this
      omega

/-! ## The Unify loop of lines 164-192 -/

theorem toByte_val_le (n : Nat) : (toByte n).val ≤ n := Nat.mod_le n 256

theorem toByte_val_of_lt (n : Nat) (h : n < 256) : (toByte n).val = n :=
  Nat.mod_eq_of_lt h

theorem mapLookup_lt (m : List Nat) (k N : Nat) (hN : 0 < N) (hm : ∀ j ∈ m, j < N) :
    mapLookup m k < N := by
  unfold mapLookup
  rw [List.getD_eq_getElem?_getD]
  cases h : m[k]? with
  | none => exact hN
  | some j => exact hm j (List.getElem?_mem h)

theorem Decoded_offset (p : Paletted) (hd : p.Decoded) (x y : Int)
    (hin : Point.In ⟨x, y⟩ p.rect = true) :
    0 ≤ p.PixOffset x y ∧ (p.PixOffset x y).toNat < p.pix.length := by
  obtain ⟨hx, hy, hs, hl, _, _, _⟩ := hd
  rw [In_iff] at hin
  obtain ⟨h1, h2, h3, h4⟩ := hin
  have hoff0 : 0 ≤ p.PixOffset x y := by
    unfold Paletted.PixOffset
    rw [hs]
    have : 0 ≤ (y - p.rect.min.y) * p.rect.Dx := mul_nonneg (by omega) hx
    omega
  have hoff1 : p.PixOffset x y < (p.pix.length : Int) := by
    unfold Paletted.PixOffset
    rw [hs, hl]
    have hle : (y - p.rect.min.y + 1) * p.rect.Dx ≤ p.rect.Dy * p.rect.Dx :=
      mul_le_mul_of_nonneg_right (by unfold Rectangle.Dy; omega) hx
    have hdx : x - p.rect.min.x < p.rect.Dx := by unfold Rectangle.Dx; omega
    have e1 : (y - p.rect.min.y + 1) * p.rect.Dx =
        (y - p.rect.min.y) * p.rect.Dx + p.rect.Dx := by ring
    have e2 : p.rect.Dy * p.rect.Dx = p.rect.Dx * p.rect.Dy := by ring
    omega
  refine ⟨hoff0, ?_⟩
  have := Int.toNat_of_nonneg hoff0
  omega

theorem remapPix_isSome (frame : Paletted) (m : List Nat) (hd : frame.Decoded) :
    ∃ p, remapPix frame m = some p := by
  unfold remapPix
  refine remapLoop_isSome frame m _ ?_ _
  intro pt hpt
  exact Decoded_offset frame hd pt.x pt.y ((mem_loopPoints _ _).1 hpt)

/-- The indices of the new buffer are positions of the palette the frame is
given. -/
theorem remapPix_valid (frame : Paletted) (primary : List Color) (p : List Byte)
    (hne : primary ≠ [])
    (h : remapPix frame (buildMap primary frame.palette).2 = some p) :
    p.length = frame.pix.length ∧
      ∀ b ∈ p, b.val < (buildMap primary frame.palette).1.length := by
  unfold remapPix at h
  obtain ⟨⟨t, ht⟩, _, hv⟩ := buildMap_spec frame.palette primary
  have hpos : 0 < (buildMap primary frame.palette).1.length := by
    rw [ht, List.length_append]
    have := List.length_pos.2 hne
    omega
  refine ⟨by rw [remapLoop_length _ _ _ _ _ h, List.length_replicate], ?_⟩
  intro b hb
  obtain ⟨i, hi, rfl⟩ := List.getElem_of_mem hb
  refine remapLoop_inv frame _ (fun _ b => b.val < (buildMap primary frame.palette).1.length)
    ?_ _ _ p h ?_ i p[i] (List.getElem?_eq_getElem hi)
  · intro _ v _
    exact lt_of_le_of_lt (toByte_val_le _) (mapLookup_lt _ _ _ hpos (hv hne))
  · intro j b hb
    rw [List.getElem?_replicate] at hb
    split_ifs at hb
    cases hb
    exact hpos

/-- What the loop over the non-primary frames yields, for any frames. -/
theorem unifyRest_spec (rest : List Paletted) :
    ∀ (primary final : List Color) (out : List Paletted), primary ≠ [] →
      unifyRest primary rest = some (final, out) →
      (∃ t, final = primary ++ t) ∧ List.Forall₂ (UnifiedFrom final) rest out := by
  induction rest with
  | nil =>
    intro primary final out _ h
    simp only [unifyRest, Option.some.injEq, Prod.mk.injEq] at h
    obtain ⟨rfl, rfl⟩ := h
    exact ⟨⟨[], by simp⟩, List.Forall₂.nil⟩
  | cons frame rest ih =>
    intro primary final out hne h
    unfold unifyRest at h
    cases hp : remapPix frame (buildMap primary frame.palette).2 with
    | none => rw [hp] at h; cases h
    | some p =>
      rw [hp] at h
      cases hr : unifyRest (buildMap primary frame.palette).1 rest with
      | none => rw [hr] at h; cases h
      | some fo =>
        obtain ⟨final1, out1⟩ := fo
        rw [hr] at h
        simp only [Option.some.injEq, Prod.mk.injEq] at h
        obtain ⟨rfl, rfl⟩ := h
        obtain ⟨⟨t1, ht1⟩, _, _⟩ := buildMap_spec frame.palette primary
        have hne1 : (buildMap primary frame.palette).1 ≠ [] := by
          rw [ht1]
          intro hnil
          exact hne (List.append_eq_nil.1 hnil).1
        obtain ⟨⟨t2, ht2⟩, hall⟩ := ih _ _ _ hne1 hr
        obtain ⟨hlen, hval⟩ := remapPix_valid frame primary p hne hp
        refine ⟨⟨t1 ++ t2, by rw [ht2, ht1, List.append_assoc]⟩, List.Forall₂.cons ?_ hall⟩
        exact ⟨rfl, rfl, hlen, ⟨t2, ht2⟩, hval⟩

theorem unifyRest_isSome (rest : List Paletted) (hd : ∀ f ∈ rest, f.Decoded) :
    ∀ primary : List Color, ∃ r, unifyRest primary rest = some r := by
  induction rest with
  | nil => intro primary; exact ⟨_, rfl⟩
  | cons frame rest ih =>
    intro primary
    obtain ⟨p, hp⟩ := remapPix_isSome frame (buildMap primary frame.palette).2
      (hd frame (List.mem_cons_self _ _))
    obtain ⟨⟨final, out⟩, hr⟩ := ih (fun f hf => hd f (List.mem_cons_of_mem _ hf))
      (buildMap primary frame.palette).1
    refine ⟨(final, { frame with pix := p, palette := (buildMap primary frame.palette).1 } :: out),
      ?_⟩
    simp only [unifyRest, hp, hr]

/-- The rewritten frame shows the colours of the frame it replaces, when the
fallback is not taken for it. -/
theorem remapPix_colours (frame : Paletted) (primary : List Color) (p : List Byte)
    (hfb : buildMapFallback primary frame.palette = false)
    (hle : (buildMap primary frame.palette).1.length ≤ 256)
    (hpix : ∀ v ∈ frame.pix, v.val < frame.palette.length)
    (h : remapPix frame (buildMap primary frame.palette).2 = some p) :
    ColourKept frame
      { frame with pix := p, palette := (buildMap primary frame.palette).1 } := by
  refine ⟨rfl, rfl, ?_⟩
  intro x y hin v hv
  unfold remapPix at h
  obtain ⟨v1, hv1, hq⟩ := remapLoop_visited frame _ _ _ p (List.length_replicate _ _) h
    ⟨x, y⟩ ((mem_loopPoints _ _).2 hin)
  simp only at hv1 hq
  rw [hv] at hv1
  cases hv1
  obtain ⟨h0, _, hget⟩ := sliceAt_eq_some _ _ _ hv
  have hvlt := hpix v (List.getElem?_mem hget)
  obtain ⟨j, hj, hc⟩ := buildMap_exact frame.palette primary hfb v.val
    frame.palette[v.val] (List.getElem?_eq_getElem hvlt)
  have hjlt : j < 256 := by
    have := (List.getElem?_eq_some_iff.1 hc).1
    omega
  have hlook : mapLookup (buildMap primary frame.palette).2 v.val = j := by
    unfold mapLookup
    rw [List.getD_eq_getElem?_getD, hj]
    rfl
  rw [hlook] at hq
  refine ⟨toByte j, frame.palette[v.val], ?_, List.getElem?_eq_getElem hvlt, ?_⟩
  · show sliceAt p (frame.PixOffset x y) = some (toByte j)
    unfold sliceAt
    rw [if_neg (by omega)]
    exact hq
  · show (buildMap primary frame.palette).1[(toByte j).val]? = some frame.palette[v.val]
    rw [toByte_val_of_lt j hjlt]
    exact hc

/-- The Unify loop within the colour budget: the fallback is never taken and
every frame keeps its colours. -/
theorem unifyRest_exact (U : List Color) (hU : Bounded U) (rest : List Paletted) :
    ∀ (primary final : List Color) (out : List Paletted),
      primary.Nodup → (∀ x ∈ primary, x ∈ U) →
      (∀ f ∈ rest, ∀ x ∈ f.palette, x ∈ U) →
      (∀ f ∈ rest, ∀ v ∈ f.pix, v.val < f.palette.length) →
      (unifyRestFallback primary rest = false) ∧
      (unifyRest primary rest = some (final, out) → List.Forall₂ ColourKept rest out) := by
  induction rest with
  | nil =>
    intro primary final out _ _ _ _
    refine ⟨rfl, ?_⟩
    intro h
    simp only [unifyRest, Option.some.injEq, Prod.mk.injEq] at h
    obtain ⟨_, rfl⟩ := h
    exact List.Forall₂.nil
  | cons frame rest ih =>
    intro primary final out hn hp hpal hpix
    obtain ⟨hfb, hn1, hp1⟩ := buildMap_nodup U hU frame.palette primary hn hp
      (hpal frame (List.mem_cons_self _ _))
    have hrest := fun final1 out1 => ih (buildMap primary frame.palette).1 final1 out1 hn1 hp1
      (fun f hf => hpal f (List.mem_cons_of_mem _ hf))
      (fun f hf => hpix f (List.mem_cons_of_mem _ hf))
    refine ⟨?_, ?_⟩
    · simp only [unifyRestFallback, hfb, (hrest [] []).1, Bool.or_self]
    · intro h
      unfold unifyRest at h
      cases hpx : remapPix frame (buildMap primary frame.palette).2 with
      | none => rw [hpx] at h; cases h
      | some p =>
        rw [hpx] at h
        cases hr : unifyRest (buildMap primary frame.palette).1 rest with
        | none => rw [hr] at h; cases h
        | some fo =>
          obtain ⟨final1, out1⟩ := fo
          rw [hr] at h
          simp only [Option.some.injEq, Prod.mk.injEq] at h
          obtain ⟨rfl, rfl⟩ := h
          exact List.Forall₂.cons
            (remapPix_colours frame primary p hfb (hU _ hn1 hp1)
              (hpix frame (List.mem_cons_self _ _)) hpx)
            ((hrest final1 out1).2 hr)

theorem bounded_of_budget (imgs : List Paletted) (hb : distinctColorCount imgs ≤ 256) :
    Bounded (allColors imgs) := by
  intro l hn hl
  have hn2 : (l.map Color.RGBA).Nodup :=
    List.Nodup.map (fun a b h => RGBA_injective a b h) hn
  have hsub : ∀ k ∈ l.map Color.RGBA, k ∈ allKeys imgs := by
    intro k hk
    obtain ⟨c, hc, rfl⟩ := List.mem_map.1 hk
    have := hl c hc
    simp only [allColors, List.mem_flatten, List.mem_map] at this
    obtain ⟨pal, ⟨img, himg, rfl⟩, hcp⟩ := this
    simp only [allKeys, List.mem_flatten, List.mem_map]
    exact ⟨img.palette.map Color.RGBA, ⟨img, himg, rfl⟩, List.mem_map.2 ⟨c, hcp, rfl⟩⟩
  have := le_distinctColorCount imgs _ hn2 hsub
  rw [List.length_map] at this
  omega

theorem mem_allColors (imgs : List Paletted) (f : Paletted) (hf : f ∈ imgs) :
    ∀ x ∈ f.palette, x ∈ allColors imgs := by
  intro x hx
  simp only [allColors, List.mem_flatten, List.mem_map]
  exact ⟨f.palette, ⟨f, hf, rfl⟩, hx⟩

/-- The Unify branch of `unifyStep`. -/
theorem unifyStep_unify (imgs : List Paletted) (hm : mustRepalettize imgs = some true)
    (hb : distinctColorCount imgs ≤ 256) :
    unifyStep imgs = (unify imgs).map (fun out => out.map Image.paletted) := by
  unfold unifyStep
  rw [hm]
  simp [(exceedsBudget_eq_false_iff imgs).2 hb]

/-- The Unify path on any frames: where it returns, the first frame keeps its
buffer and gets the final palette, which starts with its old one, and every
other frame is `UnifiedFrom` that palette. -/
theorem unify_spec (primaryFrame : Paletted) (rest : List Paletted)
    (hne : primaryFrame.palette ≠ []) (outP : List Paletted)
    (h : unify (primaryFrame :: rest) = some outP) :
    ∃ final outRest, outP = { primaryFrame with palette := final } :: outRest ∧
      (∃ t, final = primaryFrame.palette ++ t) ∧
      List.Forall₂ (UnifiedFrom final) rest outRest := by
  simp only [unify] at h
  cases hr : unifyRest primaryFrame.palette rest with
  | none => rw [hr] at h; cases h
  | some fo =>
    obtain ⟨final, outRest⟩ := fo
    rw [hr] at h
    simp only [Option.some.injEq] at h
    obtain ⟨ht, hall⟩ := unifyRest_spec rest _ _ _ hne hr
    exact ⟨final, outRest, h.symm, ht, hall⟩

theorem unify_isSome (imgs : List Paletted) (hne : imgs ≠ []) (hd : ∀ f ∈ imgs, f.Decoded) :
    ∃ out, unify imgs = some out := by
  cases imgs with
  | nil => exact absurd rfl hne
  | cons primaryFrame rest =>
    obtain ⟨⟨final, out⟩, hr⟩ := unifyRest_isSome rest
      (fun f hf => hd f (List.mem_cons_of_mem _ hf)) primaryFrame.palette
    exact ⟨{ primaryFrame with palette := final } :: out, by simp only [unify, hr]⟩

/-- The primary palette only grows at its end over the whole loop. -/
theorem unifyRest_extends (rest : List Paletted) :
    ∀ (primary final : List Color) (out : List Paletted),
      unifyRest primary rest = some (final, out) → ∃ t, final = primary ++ t := by
  induction rest with
  | nil =>
    intro primary final out h
    simp only [unifyRest, Option.some.injEq, Prod.mk.injEq] at h
    exact ⟨[], by simp [h.1]⟩
  | cons frame rest ih =>
    intro primary final out h
    unfold unifyRest at h
    cases hp : remapPix frame (buildMap primary frame.palette).2 with
    | none => rw [hp] at h; cases h
    | some p =>
      rw [hp] at h
      cases hr : unifyRest (buildMap primary frame.palette).1 rest with
      | none => rw [hr] at h; cases h
      | some fo =>
        obtain ⟨final1, out1⟩ := fo
        rw [hr] at h
        simp only [Option.some.injEq, Prod.mk.injEq] at h
        obtain ⟨rfl, rfl⟩ := h
        obtain ⟨t1, ht1⟩ := (buildMap_spec frame.palette primary).1
        obtain ⟨t2, ht2⟩ := ih _ _ _ hr
        exact ⟨t1 ++ t2, by rw [ht2, ht1, List.append_assoc]⟩

/-- The Unify path within the colour budget and with a duplicate-free first
palette: no fallback, and every frame keeps its colours. -/
theorem unify_exact (primaryFrame : Paletted) (rest : List Paletted)
    (hb : distinctColorCount (primaryFrame :: rest) ≤ 256)
    (hnd : primaryFrame.palette.Nodup)
    (hpix : ∀ f ∈ primaryFrame :: rest, ∀ v ∈ f.pix, v.val < f.palette.length) :
    fallbackReached (primaryFrame :: rest) = false ∧
    ∀ outP, unify (primaryFrame :: rest) = some outP →
      List.Forall₂ ColourKept (primaryFrame :: rest) outP := by
  have hU := bounded_of_budget _ hb
  have hex := fun final out => unifyRest_exact _ hU rest primaryFrame.palette final out hnd
    (mem_allColors _ primaryFrame (List.mem_cons_self _ _))
    (fun f hf => mem_allColors _ f (List.mem_cons_of_mem _ hf))
    (fun f hf => hpix f (List.mem_cons_of_mem _ hf))
  refine ⟨(hex [] []).1, ?_⟩
  intro outP h
  simp only [unify] at h
  cases hr : unifyRest primaryFrame.palette rest with
  | none => rw [hr] at h; cases h
  | some fo =>
    obtain ⟨final, outRest⟩ := fo
    rw [hr] at h
    simp only [Option.some.injEq] at h
    subst h
    refine List.Forall₂.cons ?_ ((hex final outRest).2 hr)
    obtain ⟨t, ht⟩ := unifyRest_extends rest _ _ _ hr
    refine ⟨rfl, rfl, ?_⟩
    intro x y _ v hv
    have hvlt := hpix primaryFrame (List.mem_cons_self _ _) v
      (List.getElem?_mem (sliceAt_eq_some _ _ _ hv).2.2)
    refine ⟨v, primaryFrame.palette[v.val], hv, List.getElem?_eq_getElem hvlt, ?_⟩
    show final[v.val]? = some primaryFrame.palette[v.val]
    rw [ht]
    exact getElem?_append_of_some _ _ _ _ (List.getElem?_eq_getElem hvlt)

set_option maxRecDepth 100000 in
/-- Two distinct colours in all, and still the fallback: the first palette is
full of duplicates. -/
theorem dupPrimary_fallback :
    mustRepalettize dupPrimary = some true ∧ distinctColorCount dupPrimary ≤ 256 ∧
      (∀ f ∈ dupPrimary, ∀ v ∈ f.pix, v.val < f.palette.length) ∧
      fallbackReached dupPrimary = true := by
  decide

/-- C16: on the Unify path (the checker yields `true`, at most 256 distinct
colours), when the first frame's palette has no duplicate colour and every
pixel index of every frame is inside its own palette, the nearest-entry
fallback is never reached and every frame the step yields shows, at every
point, the colour the source frame shows there; the step does yield frames
when the frames have the shape the decoder gives them.  Without the
no-duplicates hypothesis the fallback can be reached within the budget. -/
theorem lossless_unification (primaryFrame : Paletted) (rest : List Paletted)
    (hm : mustRepalettize (primaryFrame :: rest) = some true)
    (hb : distinctColorCount (primaryFrame :: rest) ≤ 256)
    (hnd : primaryFrame.palette.Nodup)
    (hpix : ∀ f ∈ primaryFrame :: rest, ∀ v ∈ f.pix, v.val < f.palette.length) :
    fallbackReached (primaryFrame :: rest) = false ∧
    (∀ out, unifyStep (primaryFrame :: rest) = some out →
      ∃ outP, out = outP.map Image.paletted ∧
        List.Forall₂ ColourKept (primaryFrame :: rest) outP) ∧
    ((∀ f ∈ primaryFrame :: rest, f.Decoded) →
      ∃ out, unifyStep (primaryFrame :: rest) = some out) ∧
    (∃ imgs, mustRepalettize imgs = some true ∧ distinctColorCount imgs ≤ 256 ∧
      (∀ f ∈ imgs, ∀ v ∈ f.pix, v.val < f.palette.length) ∧ fallbackReached imgs = true) := by
  obtain ⟨hfb, hkept⟩ := unify_exact primaryFrame rest hb hnd hpix
  have hstep := unifyStep_unify (primaryFrame :: rest) hm hb
  refine ⟨hfb, ?_, ?_, ⟨dupPrimary, dupPrimary_fallback⟩⟩
  · intro out hout
    rw [hstep] at hout
    cases hu : unify (primaryFrame :: rest) with
    | none => rw [hu] at hout; cases hout
    | some outP =>
      rw [hu] at hout
      simp only [Option.map_some', Option.some.injEq] at hout
      exact ⟨outP, hout.symm, hkept outP hu⟩
  · intro hd
    obtain ⟨outP, hu⟩ := unify_isSome (primaryFrame :: rest) (by simp) hd
    exact ⟨outP.map Image.paletted, by rw [hstep, hu]; rfl⟩

set_option maxRecDepth 100000 in
/-- C16 (witness): the three one-pixel frames `{red}`, `{green}`, `{blue}`. -/
theorem lossless_unification_witness :
    mustRepalettize (onePixel [red] :: [onePixel [green], onePixel [blue]]) = some true ∧
    distinctColorCount (onePixel [red] :: [onePixel [green], onePixel [blue]]) ≤ 256 ∧
    (onePixel [red]).palette.Nodup ∧
    (∀ f ∈ onePixel [red] :: [onePixel [green], onePixel [blue]],
      ∀ v ∈ f.pix, v.val < f.palette.length) ∧
    (fallbackReached (onePixel [red] :: [onePixel [green], onePixel [blue]]) = false ∧
    (∀ out, unifyStep (onePixel [red] :: [onePixel [green], onePixel [blue]]) = some out →
      ∃ outP, out = outP.map Image.paletted ∧
        List.Forall₂ ColourKept (onePixel [red] :: [onePixel [green], onePixel [blue]]) outP) ∧
    ((∀ f ∈ onePixel [red] :: [onePixel [green], onePixel [blue]], f.Decoded) →
      ∃ out, unifyStep (onePixel [red] :: [onePixel [green], onePixel [blue]]) = some out) ∧
    (∃ imgs, mustRepalettize imgs = some true ∧ distinctColorCount imgs ≤ 256 ∧
      (∀ f ∈ imgs, ∀ v ∈ f.pix, v.val < f.palette.length) ∧
      fallbackReached imgs = true)) :=
  ⟨by decide, by decide, by decide, by decide,
    lossless_unification (onePixel [red]) [onePixel [green], onePixel [blue]]
      (by decide) (by decide) (by decide) (by decide)⟩

/-- C17: on the Unify path, with a first palette that is not empty, the
frames the step yields are the first frame with its buffer unchanged and the
final primary palette, which begins with the first frame's original palette,
followed by one frame for every other frame, whose palette is an initial
segment of the final primary palette and whose every pixel value is a valid
index into that palette. -/
theorem unify_palettes_initial_segments (primaryFrame : Paletted) (rest : List Paletted)
    (hne : primaryFrame.palette ≠ [])
    (hm : mustRepalettize (primaryFrame :: rest) = some true)
    (hb : distinctColorCount (primaryFrame :: rest) ≤ 256)
    (out : List Image) (h : unifyStep (primaryFrame :: rest) = some out) :
    ∃ final outRest,
      out = Image.paletted { primaryFrame with palette := final } ::
        outRest.map Image.paletted ∧
      (∃ t, final = primaryFrame.palette ++ t) ∧
      List.Forall₂ (UnifiedFrom final) rest outRest := by
  rw [unifyStep_unify (primaryFrame :: rest) hm hb] at h
  cases hu : unify (primaryFrame :: rest) with
  | none => rw [hu] at h; cases h
  | some outP =>
    rw [hu] at h
    simp only [Option.map_some', Option.some.injEq] at h
    obtain ⟨final, outRest, rfl, ht, hall⟩ := unify_spec primaryFrame rest hne outP hu
    exact ⟨final, outRest, by rw [← h]; rfl, ht, hall⟩

set_option maxRecDepth 100000 in
/-- C17 (witness): the three one-pixel frames `{red}`, `{green}`, `{blue}`. -/
theorem unify_palettes_initial_segments_witness :
    (onePixel [red]).palette ≠ [] ∧
    mustRepalettize (onePixel [red] :: [onePixel [green], onePixel [blue]]) = some true ∧
    distinctColorCount (onePixel [red] :: [onePixel [green], onePixel [blue]]) ≤ 256 ∧
    unifyStep (onePixel [red] :: [onePixel [green], onePixel [blue]]) = some threeFramesOut ∧
    ∃ final outRest,
      threeFramesOut = Image.paletted { onePixel [red] with palette := final } ::
        outRest.map Image.paletted ∧
      (∃ t, final = (onePixel [red]).palette ++ t) ∧
      List.Forall₂ (UnifiedFrom final) [onePixel [green], onePixel [blue]] outRest :=
  ⟨by decide, by decide, by decide, rfl,
    unify_palettes_initial_segments (onePixel [red]) [onePixel [green], onePixel [blue]]
      (by decide) (by decide) (by decide) threeFramesOut rfl⟩

/-! ## Padding a decoded frame at the origin -/

theorem makeSquare_isSome (img : Image) (s : Int)
    (hmin : img.Bounds.min = ⟨0, 0⟩) (hx : img.Bounds.max.x ≤ s) (hy : img.Bounds.max.y ≤ s)
    (hs : 0 ≤ s)
    (hat : ∀ x y : Int, Point.In ⟨x, y⟩ img.Bounds = true → (img.colorAt x y).isSome = true) :
    ∃ out, makeSquare img s s transparent = some out := by
  have hrect : Rect 0 0 s s = ⟨⟨0, 0⟩, ⟨s, s⟩⟩ := by
    simp only [Rect, show ¬ (0 > s) by omega, if_false]
  unfold makeSquare NewRGBA
  rw [hrect]
  simp only [Rectangle.Dx, Rectangle.Dy, sub_zero, show ¬ (s < 0 ∨ s < 0) by omega,
    if_false]
  unfold Draw
  simp only
  have hb : img.Bounds = ⟨⟨0, 0⟩, img.Bounds.max⟩ := by
    rw [← hmin]
  have hclip2 : clip ⟨⟨0, 0⟩, ⟨s, s⟩⟩ img.Bounds img.Bounds ⟨0, 0⟩ =
      (if img.Bounds.Empty then ZR else img.Bounds, ⟨0, 0⟩) := by
    have h1 : img.Bounds.Intersect ⟨⟨0, 0⟩, ⟨s, s⟩⟩ =
        if img.Bounds.Empty then ZR else img.Bounds := by
      rw [hb]
      simp only [Rectangle.Intersect, Rectangle.Empty, lt_self_iff_false, if_false,
        show ¬ (img.Bounds.max.x > s) by omega, show ¬ (img.Bounds.max.y > s) by omega]
    cases he : img.Bounds.Empty with
    | true =>
      simp only [clip, h1, he, if_true, hmin, sub_self, Add_zero, ZR_Intersect]
      rfl
    | false =>
      simp only [clip, h1, he, Bool.false_eq_true, if_false, hmin, sub_self, Add_zero,
        Intersect_self, add_zero]
  rw [hclip2]
  cases he : img.Bounds.Empty with
  | true =>
    simp only [if_true, ZR_Empty]
    exact ⟨_, rfl⟩
  | false =>
    simp only [he, Bool.false_eq_true, if_false, hmin, sub_zero, zero_add]
    rw [if_pos]
    · exact ⟨_, rfl⟩
    · rw [List.all_eq_true]
      rintro ⟨x, y⟩ hpt
      simp only [Image.At_eq_colorAt, Option.isSome_map']
      exact hat x y ((mem_rectPoints _ _).1 hpt)

/-- Lines 205-217 on a decoded frame at the origin whose sides differ and
whose longer side `s` is within `MaxDim`: the frame is stored as a canvas
`PaddedFrom` it. -/
theorem normalizeFrame_padded (MaxDim : Nat) (f : Paletted) (s : Int) (hd : f.Decoded)
    (hmin : f.rect.min = ⟨0, 0⟩) (hne : f.rect.Dx ≠ f.rect.Dy)
    (hs : s = if f.rect.Dx > f.rect.Dy then f.rect.Dx else f.rect.Dy)
    (hM : s ≤ toInt MaxDim) :
    ∃ c, normalizeFrame MaxDim (Image.paletted f) = some (.same (Image.rgba c)) ∧
      PaddedFrom f s c := by
  have hdx := hd.1
  have hdy := hd.2.1
  have hminx : f.rect.min.x = 0 := by rw [hmin]
  have hminy : f.rect.min.y = 0 := by rw [hmin]
  have hs0 : 0 ≤ s := by rw [hs]; split_ifs <;> assumption
  have hxs : f.rect.max.x ≤ s := by
    rw [hs]; unfold Rectangle.Dx Rectangle.Dy; split_ifs <;> omega
  have hys : f.rect.max.y ≤ s := by
    rw [hs]; unfold Rectangle.Dx Rectangle.Dy; split_ifs <;> omega
  obtain ⟨c, hc⟩ := makeSquare_isSome (Image.paletted f) s hmin hxs hys hs0
    (fun x y hin => Decoded_At_isSome f hd x y hin)
  have hspec := makeSquare_at_origin (Image.paletted f) s c hmin hxs hys hs0 hc
  have hsq : squareFrame (Image.paletted f) = some (Image.rgba c) := by
    unfold squareFrame
    simp only [Image.Bounds]
    rw [if_pos hne]
    by_cases hgt : f.rect.Dx > f.rect.Dy
    · rw [if_pos hgt]
      rw [if_pos hgt] at hs
      rw [← hs, hc]
      rfl
    · rw [if_neg hgt]
      rw [if_neg hgt] at hs
      rw [← hs, hc]
      rfl
  refine ⟨c, ?_, hspec.1, hspec.2.1, hspec.2.2⟩
  unfold normalizeFrame
  rw [hsq]
  simp only [Image.Bounds, hspec.1, Rectangle.Dx, sub_zero]
  rw [if_neg (by omega)]

/-! ## Scenario A -/

theorem ColourKept_At (f g : Paletted) (hk : ColourKept f g) (hd : f.Decoded) (x y : Int)
    (hin : Point.In ⟨x, y⟩ f.rect = true) :
    ∃ col, f.At x y = some col ∧ g.At x y = some col := by
  obtain ⟨hrect, _, hpt⟩ := hk
  obtain ⟨h0, hlt⟩ := Decoded_offset f hd x y hin
  obtain ⟨w, c, hw, hfc, hgc⟩ := hpt x y hin _ (sliceAt_of_lt f.pix _ h0 hlt)
  have hf0 : f.palette.length ≠ 0 := by
    have := (List.getElem?_eq_some_iff.1 hfc).1
    omega
  have hg0 : g.palette.length ≠ 0 := by
    have := (List.getElem?_eq_some_iff.1 hgc).1
    omega
  refine ⟨c, ?_, ?_⟩
  · unfold Paletted.At
    simp only [hf0, if_false, hin, Bool.not_true, Bool.false_eq_true,
      sliceAt_of_lt f.pix _ h0 hlt]
    exact hfc
  · unfold Paletted.At
    rw [hrect]
    simp only [hg0, if_false, hin, Bool.not_true, Bool.false_eq_true, hw]
    exact hgc

theorem PaddedFrom_of_ColourKept (f g : Paletted) (s : Int) (c : RGBAImage)
    (hk : ColourKept f g) (hd : f.Decoded) (hp : PaddedFrom g s c) : PaddedFrom f s c := by
  obtain ⟨h1, h2, h3⟩ := hp
  have hrect := hk.1
  refine ⟨h1, ?_, ?_⟩
  · intro x y hin
    obtain ⟨col, hf, hg⟩ := ColourKept_At f g hk hd x y hin
    obtain ⟨col2, hg2, hc⟩ := h2 x y (by rw [hrect]; exact hin)
    rw [hg] at hg2
    cases hg2
    exact ⟨col, hf, hc⟩
  · intro x y hin
    exact h3 x y (by rw [hrect]; exact hin)

theorem toInt_of_lt_63 (u : Nat) (h : u < 2 ^ 63) : toInt u = (u : Int) := by
  rw [toInt_of_lt u (by omega), if_pos h]

/-- Scenario A for any two decoded frames of the sizes and palettes given. -/
theorem scenarioA_general (f1 f2 : Paletted) (MaxDim : Nat) (g : GIF)
    (h1 : f1.Decoded) (h2 : f2.Decoded)
    (hr1 : f1.rect = ⟨⟨0, 0⟩, ⟨10, 20⟩⟩) (hr2 : f2.rect = ⟨⟨0, 0⟩, ⟨20, 10⟩⟩)
    (hp1 : f1.palette = [transparent, red]) (hp2 : f2.palette = [transparent, blue])
    (hg : g.image = [f1, f2]) (hdl : g.delay.length = 2) (hdp : g.disposal.length = 2)
    (hM : 20 ≤ MaxDim) (hM2 : MaxDim < 2 ^ 63) :
    exceedsBudget g.image = false ∧ mustRepalettize g.image = some true ∧
    ∃ (p2 : List Byte) (c1 c2 : RGBAImage) (fr1 fr2 : Frame) (lc : Nat),
      unifyStep g.image =
        some [Image.paletted { f1 with palette := [transparent, red, blue] },
              Image.paletted { f2 with pix := p2, palette := [transparent, red, blue] }] ∧
      ColourKept f2 { f2 with pix := p2, palette := [transparent, red, blue] } ∧
      handleOne MaxDim g = some ⟨[fr1, fr2], lc⟩ ∧
      fr1.image = .same (Image.rgba c1) ∧ fr2.image = .same (Image.rgba c2) ∧
      PaddedFrom f1 20 c1 ∧ PaddedFrom f2 20 c2 := by
  rw [hg]
  have hbud : distinctColorCount [f1, f2] ≤ 256 := by
    simp only [distinctColorCount, List.map_cons, List.map_nil, hp1, hp2]
    decide
  have hmust : mustRepalettize [f1, f2] = some true := by
    obtain ⟨b, hb, hiff⟩ := mustRepalettize_spec [f1, f2] 2 (by
      intro f hf
      simp only [List.mem_cons, List.mem_singleton, List.not_mem_nil, or_false] at hf
      rcases hf with rfl | rfl
      · rw [hp1]; rfl
      · rw [hp2]; rfl)
    have : b = true := hiff.2 ⟨f1, by simp, f2, by simp, 1, red, blue,
      by rw [hp1]; rfl, by rw [hp2]; rfl, by decide⟩
    rw [hb, this]
  have hbm : buildMap [transparent, red] [transparent, blue] =
      ([transparent, red, blue], [0, 2]) := by decide
  have hfb : buildMapFallback [transparent, red] [transparent, blue] = false := by decide
  obtain ⟨p2, hpx⟩ := remapPix_isSome f2 [0, 2] h2
  have hunify : unify [f1, f2] =
      some [{ f1 with palette := [transparent, red, blue] },
            { f2 with pix := p2, palette := [transparent, red, blue] }] := by
    simp only [unify, unifyRest, hp1, hp2, hbm, hpx]
  have hstep : unifyStep [f1, f2] =
      some [Image.paletted { f1 with palette := [transparent, red, blue] },
            Image.paletted { f2 with pix := p2, palette := [transparent, red, blue] }] := by
    rw [unifyStep_unify [f1, f2] hmust hbud, hunify]
    rfl
  have hk2 : ColourKept f2 { f2 with pix := p2, palette := [transparent, red, blue] } := by
    have := remapPix_colours f2 [transparent, red] p2 (by rw [hp2]; exact hfb)
      (by rw [hp2, hbm]; decide) h2.2.2.2.2.1 (by rw [hp2, hbm]; exact hpx)
    rw [hp2, hbm] at this
    exact this
  have hk1 : ColourKept f1 { f1 with palette := [transparent, red, blue] } := by
    refine ⟨rfl, rfl, ?_⟩
    intro x y _ v hv
    have hvlt := h1.2.2.2.2.1 v (List.getElem?_mem (sliceAt_eq_some _ _ _ hv).2.2)
    refine ⟨v, f1.palette[v.val], hv, List.getElem?_eq_getElem hvlt, ?_⟩
    show [transparent, red, blue][v.val]? = some f1.palette[v.val]
    have : ([transparent, red] ++ [blue])[v.val]? = some f1.palette[v.val] :=
      getElem?_append_of_some _ _ _ _ (by
        rw [← hp1]
        exact List.getElem?_eq_getElem hvlt)
    exact this
  have hval2 := remapPix_valid f2 [transparent, red] p2 (by simp)
    (by rw [hp2, hbm]; exact hpx)
  rw [hp2, hbm] at hval2
  have hd1 : Paletted.Decoded { f1 with palette := [transparent, red, blue] } := by
    obtain ⟨a1, a2, a3, a4, a5, _, _⟩ := h1
    refine ⟨a1, a2, a3, a4, ?_, by simp, by simp⟩
    intro v hv
    have := a5 v hv
    rw [hp1] at this
    simp only [List.length_cons, List.length_nil] at this ⊢
    omega
  have hd2 : Paletted.Decoded { f2 with pix := p2, palette := [transparent, red, blue] } := by
    obtain ⟨a1, a2, a3, a4, _, _, _⟩ := h2
    refine ⟨a1, a2, a3, ?_, hval2.2, by simp, by simp⟩
    show (p2.length : Int) = f2.rect.Dx * f2.rect.Dy
    rw [hval2.1]
    exact a4
  have hti : toInt MaxDim = (MaxDim : Int) := toInt_of_lt_63 MaxDim hM2
  obtain ⟨c1, hn1, hpad1⟩ := normalizeFrame_padded MaxDim
    { f1 with palette := [transparent, red, blue] } 20 hd1 (by simp only [hr1])
    (by simp only [hr1, Rectangle.Dx, Rectangle.Dy]; decide)
    (by simp only [hr1, Rectangle.Dx, Rectangle.Dy]; decide) (by rw [hti]; omega)
  obtain ⟨c2, hn2, hpad2⟩ := normalizeFrame_padded MaxDim
    { f2 with pix := p2, palette := [transparent, red, blue] } 20 hd2 (by simp only [hr2])
    (by simp only [hr2, Rectangle.Dx, Rectangle.Dy]; decide)
    (by simp only [hr2, Rectangle.Dx, Rectangle.Dy]; decide) (by rw [hti]; omega)
  obtain ⟨d0, d1, hdl2⟩ := List.length_eq_two.1 hdl
  obtain ⟨e0, e1, hdp2⟩ := List.length_eq_two.1 hdp
  refine ⟨(exceedsBudget_eq_false_iff _).2 hbud, hmust, p2, c1, c2,
    { image := .same (Image.rgba c1), xOffset := c1.rect.min.x, yOffset := c1.rect.min.y,
      delayNumerator := (d0 % 65536).toNat, disposeOp := disposeOpOf e0,
      blendOp := BLEND_OP_OVER },
    { image := .same (Image.rgba c2), xOffset := c2.rect.min.x, yOffset := c2.rect.min.y,
      delayNumerator := (d1 % 65536).toNat, disposeOp := disposeOpOf e1,
      blendOp := BLEND_OP_OVER },
    (g.loopCount % 2 ^ 64).toNat, hstep, hk2, ?_, rfl, rfl,
    PaddedFrom_of_ColourKept _ _ _ _ hk1 h1 hpad1,
    PaddedFrom_of_ColourKept _ _ _ _ hk2 h2 hpad2⟩
  simp only [handleOne, hg, hstep, assembleFrom, assembleFrame, hn1, hn2, hdl2, hdp2,
    List.getElem?_cons_zero, List.getElem?_cons_succ, zero_add]
  rfl

set_option maxRecDepth 100000 in
/-- C14 (counterexample): in Scenario A the Unify path is taken and both
frames end with a palette of 3 entries, `[transparent, red, blue]`, not 4:
the transparent entry of the second frame is found in the primary palette
and only blue is appended. -/
theorem scenarioA_palette_three_entries :
    mustRepalettize [scenarioA1, scenarioA2] = some true ∧
    exceedsBudget [scenarioA1, scenarioA2] = false ∧
    (unifyStep [scenarioA1, scenarioA2]).map (fun out => out.map Image.palette?) =
      some [some [transparent, red, blue], some [transparent, red, blue]] := by
  decide

/-- C14 (amended): for two decoded frames of 10 x 20 and 20 x 10 at the
origin with the palettes `{transparent, red}` and `{transparent, blue}`, the
analyzer reports within budget, the checker yields `true`, the Unify path
gives both frames the shared palette `[transparent, red, blue]` of exactly 3
entries, keeps the first frame's indices and rewrites the second frame's so
that every pixel keeps its colour, and (for `20 ≤ MaxDim < 2 ^ 63`) both
output frames are 20 x 20 canvases with the original content anchored at the
origin and transparent fill elsewhere. -/
theorem scenarioA_unify_and_pad (f1 f2 : Paletted) (MaxDim : Nat) (g : GIF)
    (h1 : f1.Decoded) (h2 : f2.Decoded)
    (hr1 : f1.rect = ⟨⟨0, 0⟩, ⟨10, 20⟩⟩) (hr2 : f2.rect = ⟨⟨0, 0⟩, ⟨20, 10⟩⟩)
    (hp1 : f1.palette = [transparent, red]) (hp2 : f2.palette = [transparent, blue])
    (hg : g.image = [f1, f2]) (hdl : g.delay.length = 2) (hdp : g.disposal.length = 2)
    (hM : 20 ≤ MaxDim) (hM2 : MaxDim < 2 ^ 63) :
    exceedsBudget g.image = false ∧ mustRepalettize g.image = some true ∧
    ∃ (p2 : List Byte) (c1 c2 : RGBAImage) (fr1 fr2 : Frame) (lc : Nat),
      unifyStep g.image =
        some [Image.paletted { f1 with palette := [transparent, red, blue] },
              Image.paletted { f2 with pix := p2, palette := [transparent, red, blue] }] ∧
      ColourKept f2 { f2 with pix := p2, palette := [transparent, red, blue] } ∧
      handleOne MaxDim g = some ⟨[fr1, fr2], lc⟩ ∧
      fr1.image = .same (Image.rgba c1) ∧ fr2.image = .same (Image.rgba c2) ∧
      PaddedFrom f1 20 c1 ∧ PaddedFrom f2 20 c2 :=
  scenarioA_general f1 f2 MaxDim g h1 h2 hr1 hr2 hp1 hp2 hg hdl hdp hM hM2

set_option maxRecDepth 100000 in
/-- C14 (witness): two frames of the scenario with every pixel at index 1,
delays of 10, and `MaxDim = 1024`. -/
theorem scenarioA_unify_and_pad_witness :
    scenarioA1.Decoded ∧ scenarioA2.Decoded ∧
    scenarioA1.rect = ⟨⟨0, 0⟩, ⟨10, 20⟩⟩ ∧ scenarioA2.rect = ⟨⟨0, 0⟩, ⟨20, 10⟩⟩ ∧
    scenarioA1.palette = [transparent, red] ∧ scenarioA2.palette = [transparent, blue] ∧
    scenarioAGIF.image = [scenarioA1, scenarioA2] ∧ scenarioAGIF.delay.length = 2 ∧
    scenarioAGIF.disposal.length = 2 ∧ 20 ≤ 1024 ∧ 1024 < 2 ^ 63 ∧
    (exceedsBudget scenarioAGIF.image = false ∧
    mustRepalettize scenarioAGIF.image = some true ∧
    ∃ (p2 : List Byte) (c1 c2 : RGBAImage) (fr1 fr2 : Frame) (lc : Nat),
      unifyStep scenarioAGIF.image =
        some [Image.paletted { scenarioA1 with palette := [transparent, red, blue] },
              Image.paletted
                { scenarioA2 with pix := p2, palette := [transparent, red, blue] }] ∧
      ColourKept scenarioA2
        { scenarioA2 with pix := p2, palette := [transparent, red, blue] } ∧
      handleOne 1024 scenarioAGIF = some ⟨[fr1, fr2], lc⟩ ∧
      fr1.image = .same (Image.rgba c1) ∧ fr2.image = .same (Image.rgba c2) ∧
      PaddedFrom scenarioA1 20 c1 ∧ PaddedFrom scenarioA2 20 c2) :=
  ⟨by decide, by decide, rfl, rfl, rfl, rfl, rfl, rfl, rfl, by decide, by decide,
    scenarioA_unify_and_pad scenarioA1 scenarioA2 1024 scenarioAGIF (by decide) (by decide) rfl rfl rfl rfl
      rfl rfl rfl (by decide) (by decide)⟩

end Signalstickers
